import Mathlib

/-!
# Verification of the studio playback core

Shallow embedding of the playback core of this repository:

* the incremental MCAP container decoder (`McapReader`, source file with
  `nextRecord` / `read`), together with models of its helpers
  (`ByteStorage`, `parseMagic`, `parseRecord`, `MCAP_MAGIC`) which are not
  part of the provided sources and are therefore modelled from the spec;
* the random-access playback engine (`RandomAccessPlayer`) and the live
  rosbridge engine (`RosbridgePlayer`).

Bytes are modelled as `List Nat`; timestamps (`@foxglove/rostime` `Time`
values, an external library) are modelled as total nanosecond counts (`Int`),
and the library helpers `add`, `subtract`, `compare` and `clampTime` as the
corresponding integer operations.
-/

/-! ## Container byte format (modelled from the spec)

The spec describes the container as: a fixed magic header and trailing
magic; self-describing record kinds, each with a type tag and a
length-prefixed payload; chunk records additionally carrying a
compression-name string and a decompressed-size hint.  `parse.ts` and
`constants.ts` are not under the provided sources, so the concrete byte
layout below is a faithful instantiation of that description: one tag byte,
a 4-byte little-endian payload length, then the payload; a chunk payload is
a one-byte compression-name length, the compression-name bytes, a 4-byte
little-endian decompressed-size hint, and the chunk data. -/

/-- Modelled from the spec: the fixed magic byte sequence (`MCAP_MAGIC` from
`constants.ts`, which is not under the provided sources). -/
def MCAP_MAGIC : List Nat := [137, 77, 67, 65, 80, 48, 13, 10]

/-- Decoded container records: the tagged variant over record kinds from the
source's `McapRecord` type (channel info, message, chunk, index data, chunk
info, footer).  Payloads are opaque byte lists; a chunk carries its
compression name (as bytes), decompressed-size hint, and nested data. -/
inductive McapRecord
  | channelInfo (data : List Nat)
  | message (data : List Nat)
  | chunk (compression : List Nat) (decompressedSize : Nat) (data : List Nat)
  | indexData (data : List Nat)
  | chunkInfo (data : List Nat)
  | footer (data : List Nat)
deriving DecidableEq, Repr

/-- Outcome of `parseMagic`: not enough bytes yet, malformed magic (fatal),
or success returning the remaining bytes after the 8 magic bytes. -/
inductive MagicOut
  | needBytes
  | bad
  | good (rest : List Nat)
deriving DecidableEq, Repr

/-- Modelled from the spec: `parseMagic` from `parse.ts` (not under the
provided sources).  Validates the fixed magic sequence at the front of the
buffer; reports "need more bytes" when fewer than 8 bytes are available and
a fatal error on mismatch. -/
def parseMagic (b : List Nat) : MagicOut :=
  if b.length < 8 then .needBytes
  else if b.take 8 = MCAP_MAGIC then .good (b.drop 8)
  else .bad

/-- Outcome of `parseRecord`: not enough bytes for a complete record, a
fatal parse error, or a record together with the unconsumed remainder of
the buffer (the source consumes `usedBytes` from its `ByteStorage`;
returning the remainder is the same information). -/
inductive ParseOut
  | needBytes
  | fail (msg : String)
  | ok (r : McapRecord) (rest : List Nat)
deriving DecidableEq, Repr

/-- Little-endian 32-bit read of four byte values. -/
def readLE4 (a b c d : Nat) : Nat := a + 256 * b + 65536 * c + 16777216 * d

/-- Modelled from the spec: decomposition of a chunk record's payload into
compression name, decompressed-size hint and chunk data. -/
def parseChunkPayload (payload : List Nat) : Except String (List Nat × Nat × List Nat) :=
  match payload with
  | [] => .error "invalid chunk record"
  | n :: rest =>
    if rest.length < n then .error "invalid chunk record"
    else
      match rest.drop n with
      | a :: b :: c :: d :: data => .ok (rest.take n, readLE4 a b c d, data)
      | _ => .error "invalid chunk record"

/-- Modelled from the spec: the tag dispatch of `parseRecord` — build the
record of the kind named by the tag byte from the payload bytes; unknown
tags are a fatal error. -/
def parseBody (t : Nat) (payload : List Nat) : Except String McapRecord :=
  match t with
  | 1 => .ok (.channelInfo payload)
  | 2 => .ok (.message payload)
  | 3 =>
    match parseChunkPayload payload with
    | .ok (comp, ds, data) => .ok (.chunk comp ds data)
    | .error m => .error m
  | 4 => .ok (.indexData payload)
  | 5 => .ok (.chunkInfo payload)
  | 6 => .ok (.footer payload)
  | _ => .error "unknown record type"

/-- Modelled from the spec: `parseRecord` from `parse.ts` (not under the
provided sources).  Reads one tag byte and a 4-byte little-endian payload
length; reports "need more bytes" unless the whole record is available. -/
def parseRecord (b : List Nat) : ParseOut :=
  match b with
  | t :: a :: b2 :: c :: d :: rest =>
    let len := readLE4 a b2 c d
    if rest.length < len then .needBytes
    else
      match parseBody t (rest.take len) with
      | .ok r => .ok r (rest.drop len)
      | .error m => .fail m
  | _ => .needBytes

/-! ### Canonical encoding

Used to state the round-trip property: `encodeRecord` produces exactly the
byte layout `parseRecord` consumes. -/

/-- Little-endian 32-bit encoding of a natural number (low byte first). -/
def encodeLE4 (n : Nat) : List Nat :=
  [n % 256, n / 256 % 256, n / 65536 % 256, n / 16777216 % 256]

/-- The payload bytes of a record (for a chunk: compression-name length,
compression name, decompressed-size hint, chunk data). -/
def recPayload : McapRecord → List Nat
  | .channelInfo d => d
  | .message d => d
  | .chunk comp ds data => comp.length :: (comp ++ (encodeLE4 ds ++ data))
  | .indexData d => d
  | .chunkInfo d => d
  | .footer d => d

/-- The tag byte of a record kind. -/
def recTag : McapRecord → Nat
  | .channelInfo _ => 1
  | .message _ => 2
  | .chunk _ _ _ => 3
  | .indexData _ => 4
  | .chunkInfo _ => 5
  | .footer _ => 6

/-- Canonical encoding of one record: tag byte, 4-byte little-endian payload
length, payload. -/
def encodeRecord (r : McapRecord) : List Nat :=
  recTag r :: (encodeLE4 (recPayload r).length ++ recPayload r)

/-- Well-formedness needed for the encoding to round-trip: the payload
length fits in 32 bits and, for a chunk, so does the decompressed-size
hint. -/
def recEncWF (r : McapRecord) : Prop :=
  (recPayload r).length < 2 ^ 32 ∧
    (match r with
     | .chunk _ ds _ => ds < 2 ^ 32
     | _ => True)

instance (r : McapRecord) : Decidable (recEncWF r) := by
  unfold recEncWF
  cases r <;> exact inferInstance

/-- The record kinds the reader yields directly from the top level (and the
only kinds allowed inside a chunk besides being the non-special kinds). -/
def isYieldKind (r : McapRecord) : Bool :=
  match r with
  | .channelInfo _ => true
  | .message _ => true
  | .indexData _ => true
  | .chunkInfo _ => true
  | _ => false

/-- The record kinds that are a fatal corruption error when nested inside a
chunk (`Chunk`, `IndexData`, `ChunkInfo`, `Footer` in the source's nested
switch). -/
def forbiddenInChunk (r : McapRecord) : Bool :=
  match r with
  | .chunk _ _ _ => true
  | .indexData _ => true
  | .chunkInfo _ => true
  | .footer _ => true
  | _ => false

/-! ### Round-trip and prefix-stability lemmas for the byte format -/

theorem readLE4_encode (n : Nat) (h : n < 2 ^ 32) :
    readLE4 (n % 256) (n / 256 % 256) (n / 65536 % 256) (n / 16777216 % 256) = n := by
  unfold readLE4
  omega

theorem parseMagic_append_good {b e rest : List Nat}
    (h : parseMagic b = .good rest) : parseMagic (b ++ e) = .good (rest ++ e) := by
  unfold parseMagic at h ⊢
  by_cases hl : b.length < 8
  · simp [hl] at h
  · have hl8 : 8 ≤ b.length := Nat.le_of_not_lt hl
    by_cases ht : b.take 8 = MCAP_MAGIC
    · simp [hl, ht] at h
      have h1 : ¬ (b ++ e).length < 8 := by
        simp [List.length_append]; omega
      have h2 : (b ++ e).take 8 = MCAP_MAGIC := by
        rw [List.take_append_of_le_length hl8, ht]
      simp [h1, h2, List.drop_append_of_le_length hl8, ← h]
      omega
    · simp [hl, ht] at h

theorem parseMagic_append_bad {b e : List Nat}
    (h : parseMagic b = .bad) : parseMagic (b ++ e) = .bad := by
  unfold parseMagic at h ⊢
  by_cases hl : b.length < 8
  · simp [hl] at h
  · have hl8 : 8 ≤ b.length := Nat.le_of_not_lt hl
    by_cases ht : b.take 8 = MCAP_MAGIC
    · simp [hl, ht] at h
    · have h1 : ¬ (b ++ e).length < 8 := by
        simp [List.length_append]; omega
      have h2 : (b ++ e).take 8 ≠ MCAP_MAGIC := by
        rw [List.take_append_of_le_length hl8]; exact ht
      simp [h1, h2]
      omega

theorem parseMagic_good_length {b rest : List Nat}
    (h : parseMagic b = .good rest) : rest.length + 8 = b.length := by
  unfold parseMagic at h
  by_cases hl : b.length < 8
  · simp [hl] at h
  · by_cases ht : b.take 8 = MCAP_MAGIC
    · simp [hl, ht] at h
      subst h
      simp [List.length_drop]
      omega
    · simp [hl, ht] at h

theorem parseMagic_magic_append (x : List Nat) :
    parseMagic (MCAP_MAGIC ++ x) = .good x := by
  have hbase : parseMagic MCAP_MAGIC = .good [] := by decide
  simpa using parseMagic_append_good (e := x) hbase

theorem parseRecord_append_ok {b e rest : List Nat} {r : McapRecord}
    (h : parseRecord b = .ok r rest) : parseRecord (b ++ e) = .ok r (rest ++ e) := by
  match b with
  | [] => simp [parseRecord] at h
  | [t] => simp [parseRecord] at h
  | [t, a] => simp [parseRecord] at h
  | [t, a, b2] => simp [parseRecord] at h
  | [t, a, b2, c] => simp [parseRecord] at h
  | t :: a :: b2 :: c :: d :: rest0 =>
    unfold parseRecord at h ⊢
    simp only [List.cons_append] at *
    by_cases hl : rest0.length < readLE4 a b2 c d
    · simp [hl] at h
    · have hle : readLE4 a b2 c d ≤ rest0.length := Nat.le_of_not_lt hl
      have hl2 : ¬ (rest0 ++ e).length < readLE4 a b2 c d := by
        simp [List.length_append]; omega
      simp only [hl, if_false, hl2] at h ⊢
      rw [List.take_append_of_le_length hle, List.drop_append_of_le_length hle]
      revert h
      match parseBody t (rest0.take (readLE4 a b2 c d)) with
      | .ok r0 =>
        intro h
        rw [(ParseOut.ok.inj h).1, ← (ParseOut.ok.inj h).2]
      | .error m0 => intro h; exact absurd h (by simp)

theorem parseRecord_append_fail {b e : List Nat} {m : String}
    (h : parseRecord b = .fail m) : parseRecord (b ++ e) = .fail m := by
  match b with
  | [] => simp [parseRecord] at h
  | [t] => simp [parseRecord] at h
  | [t, a] => simp [parseRecord] at h
  | [t, a, b2] => simp [parseRecord] at h
  | [t, a, b2, c] => simp [parseRecord] at h
  | t :: a :: b2 :: c :: d :: rest0 =>
    unfold parseRecord at h ⊢
    simp only [List.cons_append] at *
    by_cases hl : rest0.length < readLE4 a b2 c d
    · simp [hl] at h
    · have hle : readLE4 a b2 c d ≤ rest0.length := Nat.le_of_not_lt hl
      have hl2 : ¬ (rest0 ++ e).length < readLE4 a b2 c d := by
        simp [List.length_append]; omega
      simp only [hl, if_false, hl2] at h ⊢
      rw [List.take_append_of_le_length hle]
      revert h
      match parseBody t (rest0.take (readLE4 a b2 c d)) with
      | .ok r0 => intro h; exact absurd h (by simp)
      | .error m0 => intro h; exact h

theorem parseRecord_ok_length {b rest : List Nat} {r : McapRecord}
    (h : parseRecord b = .ok r rest) : rest.length + 5 ≤ b.length := by
  match b with
  | [] => simp [parseRecord] at h
  | [t] => simp [parseRecord] at h
  | [t, a] => simp [parseRecord] at h
  | [t, a, b2] => simp [parseRecord] at h
  | [t, a, b2, c] => simp [parseRecord] at h
  | t :: a :: b2 :: c :: d :: rest0 =>
    unfold parseRecord at h
    by_cases hl : rest0.length < readLE4 a b2 c d
    · simp [hl] at h
    · have hrest : rest = rest0.drop (readLE4 a b2 c d) := by
        simp only [hl, if_false] at h
        revert h
        match parseBody t (rest0.take (readLE4 a b2 c d)) with
        | .ok r0 => intro h; exact ((ParseOut.ok.inj h).2).symm
        | .error m0 => intro h; exact absurd h (by simp)
      subst hrest
      simp only [List.length_drop, List.length_cons]
      omega

theorem parseChunkPayload_encode (comp : List Nat) (ds : Nat) (data : List Nat)
    (h : ds < 2 ^ 32) :
    parseChunkPayload (comp.length :: (comp ++ (encodeLE4 ds ++ data))) = .ok (comp, ds, data) := by
  have e4 : encodeLE4 ds ++ data
      = ds % 256 :: (ds / 256 % 256 :: (ds / 65536 % 256 :: (ds / 16777216 % 256 :: data))) := rfl
  simp only [parseChunkPayload]
  have h1 : ¬ (comp ++ (encodeLE4 ds ++ data)).length < comp.length := by
    simp [List.length_append]
  rw [if_neg h1, List.drop_left, List.take_left, e4]
  show Except.ok (comp, readLE4 (ds % 256) (ds / 256 % 256) (ds / 65536 % 256) (ds / 16777216 % 256), data) = _
  rw [readLE4_encode ds h]

theorem parseBody_encode (r : McapRecord) (h : recEncWF r) :
    parseBody (recTag r) (recPayload r) = .ok r := by
  cases r with
  | chunk comp ds data =>
    have hds : ds < 2 ^ 32 := h.2
    show parseBody 3 (comp.length :: (comp ++ (encodeLE4 ds ++ data))) = _
    simp [parseBody, parseChunkPayload_encode comp ds data hds]
  | channelInfo d => rfl
  | message d => rfl
  | indexData d => rfl
  | chunkInfo d => rfl
  | footer d => rfl

theorem parseRecord_encode (r : McapRecord) (rest : List Nat) (h : recEncWF r) :
    parseRecord (encodeRecord r ++ rest) = .ok r rest := by
  have hL := h.1
  have henc : encodeRecord r ++ rest =
      recTag r :: (recPayload r).length % 256 :: (recPayload r).length / 256 % 256 ::
        (recPayload r).length / 65536 % 256 :: (recPayload r).length / 16777216 % 256 ::
        (recPayload r ++ rest) := by
    simp [encodeRecord, encodeLE4]
  rw [henc]
  simp only [parseRecord]
  rw [readLE4_encode _ hL]
  have h1 : ¬ (recPayload r ++ rest).length < (recPayload r).length := by
    simp [List.length_append]
  simp only [h1, if_false, List.take_left, List.drop_left, parseBody_encode r h]

/-- The number of bytes `encodeRecord` produces: 5 header bytes plus the
payload. -/
theorem encodeRecord_length (r : McapRecord) :
    (encodeRecord r).length = (recPayload r).length + 5 := by
  simp [encodeRecord, encodeLE4]

/-! ## The McapReader state machine

The source's `read()` is a generator; per the spec's design note it is
embedded here as an explicit resumable state machine: a `Phase` records the
suspension point and `resume` runs the generator from one `yield` to the
next.  The phases correspond to the generator's yield points: before the
leading magic (`start`), before a top-level record (`records`), just after
yielding a chunk record when `includeChunks` is set (`chunkYielded`), inside
a chunk's nested record loop (`inChunk`), and after a footer record waiting
for the trailing magic (`trailer`). -/

inductive Phase
  | start
  | records
  | chunkYielded (comp : List Nat) (dsize : Nat) (data : List Nat)
  | inChunk (rem : List Nat)
  | trailer (fdata : List Nat)
deriving DecidableEq, Repr

/-- The reader's constructor options: `includeChunks` and the pluggable
decompression registry (a partial map from compression names to
decompression functions taking the data and the decompressed-size hint). -/
structure McapCfg where
  includeChunks : Bool
  decompressHandlers : List Nat → Option (List Nat → Nat → List Nat)

/-- The constructor defaults: `includeChunks = false`, no decompression
handlers registered. -/
def defaultCfg : McapCfg := ⟨false, fun _ => none⟩

/-- Result of running the generator from one suspension point to the next:
a `yield` (of a record, or of nothing = the "need more bytes" signal), a
`return` (only the footer, ending the generator), a thrown error, the
internal "chunk contents exhausted, continue the main loop" continuation,
or fuel exhaustion (an artifact of the fuelled embedding, never reached
from reachable states — see `goRecordsF_no_fuelOut`). -/
inductive GoOut
  | yieldOut (r : Option McapRecord) (ph : Phase) (buf : List Nat)
  | retOut (r : McapRecord) (buf : List Nat)
  | errOut (msg : String) (buf : List Nat)
  | chunkDone (buf : List Nat)
  | fuelOut (buf : List Nat)
deriving Repr

/-- Decompression of a chunk's contents (source lines: `if
(record.compression !== "") { const decompress = ... }`): an empty
compression name means the data is used as-is; otherwise the registered
handler is applied, and an unregistered name is a fatal error. -/
def chunkEval (cfg : McapCfg) (comp : List Nat) (dsize : Nat) (data : List Nat) :
    Except String (List Nat) :=
  if comp = [] then .ok data
  else
    match cfg.decompressHandlers comp with
    | none => .error "Unsupported compression"
    | some f => .ok (f data dsize)

/-- One step of the nested record loop inside a chunk (`rem` is the not yet
consumed part of the decompressed chunk contents, `b` the main buffer,
untouched here).  A nested `Chunk`/`IndexData`/`ChunkInfo`/`Footer` record
is a fatal error; a nested `ChannelInfo`/`Message` is yielded; when the
loop ends, any unconsumed chunk bytes are a fatal error, otherwise the main
loop continues. -/
def chunkStep (rem : List Nat) (b : List Nat) : GoOut :=
  match parseRecord rem with
  | .ok r rest =>
    if forbiddenInChunk r then .errOut "record not allowed inside a chunk" b
    else .yieldOut (some r) (.inChunk rest) b
  | .needBytes =>
    if rem = [] then .chunkDone b else .errOut "bytes remaining in chunk" b
  | .fail m => .errOut m b

/-- The footer epilogue: parse the trailing magic; any bytes remaining
after it are a fatal error, otherwise the generator returns the footer
record. -/
def trailerStep (fdata : List Nat) (b : List Nat) : GoOut :=
  match parseMagic b with
  | .needBytes => .yieldOut none (.trailer fdata) b
  | .bad => .errOut "bad magic" b
  | .good rest =>
    if rest = [] then .retOut (.footer fdata) rest
    else .errOut "bytes remaining after MCAP footer and trailing magic" rest

/-- The generator's main loop (`for (;;) { parseRecord; switch ... }`),
fuelled: the only self-call is "a chunk yielded no nested records, continue
the main loop", which consumes at least 10 buffer bytes, so fuel
`b.length + 1` always suffices (`goRecords`). -/
def goRecordsF (cfg : McapCfg) : Nat → List Nat → GoOut
  | 0, b => .fuelOut b
  | fuel + 1, b =>
    match parseRecord b with
    | .needBytes => .yieldOut none .records b
    | .fail m => .errOut m b
    | .ok r rest =>
      match r with
      | .chunk comp ds data =>
        if cfg.includeChunks then
          .yieldOut (some (.chunk comp ds data)) (.chunkYielded comp ds data) rest
        else
          match chunkEval cfg comp ds data with
          | .error m => .errOut m rest
          | .ok data2 =>
            match chunkStep data2 rest with
            | .chunkDone b2 => goRecordsF cfg fuel b2
            | out => out
      | .footer fdata => trailerStep fdata rest
      | other => .yieldOut (some other) .records rest

/-- The generator's main loop with always-sufficient fuel. -/
def goRecords (cfg : McapCfg) (b : List Nat) : GoOut :=
  goRecordsF cfg (b.length + 1) b

/-- Resume the generator from the given suspension point with the given
buffer, running until the next yield / return / throw. -/
def resume (cfg : McapCfg) : Phase → List Nat → GoOut
  | .start, b =>
    match parseMagic b with
    | .needBytes => .yieldOut none .start b
    | .bad => .errOut "bad magic" b
    | .good rest => goRecords cfg rest
  | .records, b => goRecords cfg b
  | .chunkYielded comp ds data, b =>
    match chunkEval cfg comp ds data with
    | .error m => .errOut m b
    | .ok data2 =>
      match chunkStep data2 b with
      | .chunkDone b2 => goRecords cfg b2
      | out => out
  | .inChunk rem, b =>
    match chunkStep rem b with
    | .chunkDone b2 => goRecords cfg b2
    | out => out
  | .trailer fdata, b => trailerStep fdata b

/-- The reader's mutable state: its `ByteStorage` buffer of appended but
unconsumed bytes, the generator's suspension point, whether the generator
has completed (by returning or throwing), and the `doneReading` flag. -/
structure McapReaderState where
  buffer : List Nat
  phase : Phase
  genDone : Bool
  doneReading : Bool
deriving DecidableEq, Repr

/-- A freshly constructed reader. -/
def initReader : McapReaderState := ⟨[], .start, false, false⟩

/-- The observable outcome of one `nextRecord()` call: a returned value
(a record or `undefined`) or a thrown exception. -/
inductive NextOut
  | val (r : Option McapRecord)
  | thrown (msg : String)
deriving DecidableEq, Repr

/-- `McapReader.nextRecord` from the source: if `doneReading`, return
`undefined`; otherwise step the generator; a completed generator reports
done (setting `doneReading`) with value `undefined`; the generator's
`return` value (the footer) is returned while also setting `doneReading`;
a thrown error propagates to the caller and leaves the generator completed
(but `doneReading` still unset, exactly as in the source, where the flag is
only set on the next call). -/
def nextRecord (cfg : McapCfg) (s : McapReaderState) : NextOut × McapReaderState :=
  if s.doneReading then (.val none, s)
  else if s.genDone then (.val none, { s with doneReading := true })
  else
    match resume cfg s.phase s.buffer with
    | .yieldOut r ph b => (.val r, { s with phase := ph, buffer := b })
    | .retOut r b => (.val (some r), { s with buffer := b, genDone := true, doneReading := true })
    | .errOut m b => (.thrown m, { s with buffer := b, genDone := true })
    | .chunkDone b => (.val none, { s with buffer := b })
    | .fuelOut b => (.thrown "out of fuel", { s with buffer := b, genDone := true })

/-- `McapReader.append` from the source: appending after `doneReading`
throws `"Already done reading"`; otherwise the bytes go into the
`ByteStorage` buffer. -/
def appendBytes (s : McapReaderState) (data : List Nat) : Except String McapReaderState :=
  if s.doneReading then .error "Already done reading"
  else .ok { s with buffer := s.buffer ++ data }

/-- `McapReader.done` from the source. -/
def readerDone (s : McapReaderState) : Bool := s.doneReading


/-! ### Shape and stability lemmas for the generator steps -/

theorem chunkStep_yield {rem b : List Nat} {r : Option McapRecord} {ph : Phase} {x : List Nat}
    (h : chunkStep rem b = .yieldOut r ph x) :
    x = b ∧ (∃ r0 rest, r = some r0 ∧ ph = .inChunk rest ∧ parseRecord rem = .ok r0 rest ∧
      forbiddenInChunk r0 = false) ∧ ∀ b', chunkStep rem b' = .yieldOut r ph b' := by
  unfold chunkStep at h
  rcases hp : parseRecord rem with _ | m | ⟨r0, rest⟩ <;> rw [hp] at h <;> dsimp only at h
  · by_cases hz : rem = []
    · rw [if_pos hz] at h; cases h
    · rw [if_neg hz] at h; cases h
  · cases h
  · by_cases hf : forbiddenInChunk r0 = true
    · rw [if_pos hf] at h; cases h
    · rw [if_neg hf] at h
      obtain ⟨h1, h2, h3⟩ := GoOut.yieldOut.inj h
      subst h1; subst h2; subst h3
      refine ⟨rfl, ⟨r0, rest, rfl, rfl, rfl, by simpa using hf⟩, fun b' => ?_⟩
      unfold chunkStep
      rw [hp]
      dsimp only
      rw [if_neg hf]

theorem chunkStep_err {rem b : List Nat} {m : String} {x : List Nat}
    (h : chunkStep rem b = .errOut m x) :
    x = b ∧ ∀ b', chunkStep rem b' = .errOut m b' := by
  unfold chunkStep at h
  rcases hp : parseRecord rem with _ | m2 | ⟨r0, rest⟩ <;> rw [hp] at h <;> dsimp only at h
  · by_cases hz : rem = []
    · rw [if_pos hz] at h; cases h
    · rw [if_neg hz] at h
      obtain ⟨h1, h2⟩ := GoOut.errOut.inj h
      subst h1; subst h2
      exact ⟨rfl, fun b' => by unfold chunkStep; rw [hp]; dsimp only; rw [if_neg hz]⟩
  · obtain ⟨h1, h2⟩ := GoOut.errOut.inj h
    subst h1; subst h2
    exact ⟨rfl, fun b' => by unfold chunkStep; rw [hp]⟩
  · by_cases hf : forbiddenInChunk r0 = true
    · rw [if_pos hf] at h
      obtain ⟨h1, h2⟩ := GoOut.errOut.inj h
      subst h1; subst h2
      exact ⟨rfl, fun b' => by unfold chunkStep; rw [hp]; dsimp only; rw [if_pos hf]⟩
    · rw [if_neg hf] at h; cases h

theorem chunkStep_done {rem b : List Nat} {x : List Nat}
    (h : chunkStep rem b = .chunkDone x) :
    x = b ∧ rem = [] ∧ ∀ b', chunkStep rem b' = .chunkDone b' := by
  unfold chunkStep at h
  rcases hp : parseRecord rem with _ | m2 | ⟨r0, rest⟩ <;> rw [hp] at h <;> dsimp only at h
  · by_cases hz : rem = []
    · rw [if_pos hz] at h
      obtain h1 := GoOut.chunkDone.inj h
      subst h1
      exact ⟨rfl, hz, fun b' => by unfold chunkStep; rw [hp]; dsimp only; rw [if_pos hz]⟩
    · rw [if_neg hz] at h; cases h
  · cases h
  · by_cases hf : forbiddenInChunk r0 = true
    · rw [if_pos hf] at h; cases h
    · rw [if_neg hf] at h; cases h

theorem chunkStep_not_ret {rem b : List Nat} {r : McapRecord} {x : List Nat} :
    chunkStep rem b ≠ .retOut r x := by
  unfold chunkStep
  rcases hp : parseRecord rem with _ | m2 | ⟨r0, rest⟩ <;> dsimp only
  · by_cases hz : rem = []
    · rw [if_pos hz]; intro h; cases h
    · rw [if_neg hz]; intro h; cases h
  · intro h; cases h
  · by_cases hf : forbiddenInChunk r0 = true
    · rw [if_pos hf]; intro h; cases h
    · rw [if_neg hf]; intro h; cases h

theorem chunkStep_not_fuel {rem b : List Nat} {x : List Nat} :
    chunkStep rem b ≠ .fuelOut x := by
  unfold chunkStep
  rcases hp : parseRecord rem with _ | m2 | ⟨r0, rest⟩ <;> dsimp only
  · by_cases hz : rem = []
    · rw [if_pos hz]; intro h; cases h
    · rw [if_neg hz]; intro h; cases h
  · intro h; cases h
  · by_cases hf : forbiddenInChunk r0 = true
    · rw [if_pos hf]; intro h; cases h
    · rw [if_neg hf]; intro h; cases h

/-- How `trailerStep` reacts to extra bytes appended to the buffer: a
"need more" yield is stationary; an error is stable; a successful return
becomes the trailing-data error as soon as any byte follows the trailing
magic. -/
theorem trailerStep_append (f : List Nat) (b e : List Nat) :
    match trailerStep f b with
    | .yieldOut r ph b2 => r = none ∧ ph = .trailer f ∧ b2 = b
    | .errOut m b2 => trailerStep f (b ++ e) = .errOut m (b2 ++ e)
    | .retOut r b2 => r = .footer f ∧ b2 = [] ∧ trailerStep f (b ++ e) =
        (if e = [] then .retOut (.footer f) []
         else .errOut "bytes remaining after MCAP footer and trailing magic" e)
    | .chunkDone _ => False
    | .fuelOut _ => False := by
  unfold trailerStep
  rcases hm : parseMagic b with _ | _ | rest <;> dsimp only
  · exact ⟨rfl, rfl, rfl⟩
  · rw [parseMagic_append_bad hm]
  · by_cases hz : rest = []
    · rw [if_pos hz]
      dsimp only
      subst hz
      refine ⟨rfl, rfl, ?_⟩
      have hg : parseMagic (b ++ e) = .good e := by
        simpa using parseMagic_append_good (e := e) hm
      rw [hg]
      dsimp only
      by_cases he : e = []
      · rw [if_pos he, if_pos he, he]
      · rw [if_neg he, if_neg he]
    · rw [if_neg hz]
      dsimp only
      rw [parseMagic_append_good (e := e) hm]
      dsimp only
      have hz2 : rest ++ e ≠ [] := by
        intro hc
        exact hz (List.append_eq_nil.mp hc).1
      rw [if_neg hz2]

/-- The fuelled main loop does not depend on the exact fuel, as long as the
fuel exceeds the buffer length. -/
theorem goRecordsF_irrel (cfg : McapCfg) :
    ∀ f1 f2 b, b.length < f1 → b.length < f2 →
      goRecordsF cfg f1 b = goRecordsF cfg f2 b := by
  intro f1
  induction f1 with
  | zero => intro f2 b h1 h2; omega
  | succ n ih =>
    intro f2 b h1 h2
    match f2 with
    | 0 => omega
    | f2n + 1 =>
      simp only [goRecordsF]
      rcases hp : parseRecord b with _ | m | ⟨r, rest⟩ <;> dsimp only
      rcases r with d | d | ⟨comp, ds, data⟩ | d | d | d <;> dsimp only
      by_cases hic : cfg.includeChunks = true
      · rw [if_pos hic, if_pos hic]
      · rw [if_neg hic, if_neg hic]
        rcases hce : chunkEval cfg comp ds data with m2 | data2 <;> dsimp only
        rcases hcs : chunkStep data2 rest with ⟨r2, ph2, b2⟩ | ⟨r2, b2⟩ | ⟨m2, b2⟩ | b2 | b2 <;>
          dsimp only
        obtain ⟨hb2, hrem, _⟩ := chunkStep_done hcs
        subst hb2
        have hlen : b2.length + 5 ≤ b.length := parseRecord_ok_length hp
        exact ih f2n b2 (by omega) (by omega)

/-- `goRecords` never runs out of fuel and never leaks the internal
`chunkDone` continuation. -/
theorem goRecordsF_no_fuelOut (cfg : McapCfg) :
    ∀ fuel b, b.length < fuel →
      ∀ x, goRecordsF cfg fuel b ≠ .fuelOut x ∧ goRecordsF cfg fuel b ≠ .chunkDone x := by
  intro fuel
  induction fuel with
  | zero => intro b h1; omega
  | succ n ih =>
    intro b h1 x
    simp only [goRecordsF]
    rcases hp : parseRecord b with _ | m | ⟨r, rest⟩ <;> dsimp only
    · exact ⟨fun h => GoOut.noConfusion h, fun h => GoOut.noConfusion h⟩
    · exact ⟨fun h => GoOut.noConfusion h, fun h => GoOut.noConfusion h⟩
    · rcases r with d | d | ⟨comp, ds, data⟩ | d | d | d <;> dsimp only
      · exact ⟨fun h => GoOut.noConfusion h, fun h => GoOut.noConfusion h⟩
      · exact ⟨fun h => GoOut.noConfusion h, fun h => GoOut.noConfusion h⟩
      · by_cases hic : cfg.includeChunks = true
        · rw [if_pos hic]
          exact ⟨fun h => GoOut.noConfusion h, fun h => GoOut.noConfusion h⟩
        · rw [if_neg hic]
          rcases hce : chunkEval cfg comp ds data with m2 | data2 <;> dsimp only
          · exact ⟨fun h => GoOut.noConfusion h, fun h => GoOut.noConfusion h⟩
          · rcases hcs : chunkStep data2 rest with ⟨r2, ph2, b2⟩ | ⟨r2, b2⟩ | ⟨m2, b2⟩ | b2 | b2 <;>
              dsimp only
            · exact ⟨fun h => GoOut.noConfusion h, fun h => GoOut.noConfusion h⟩
            · exact absurd hcs chunkStep_not_ret
            · exact ⟨fun h => GoOut.noConfusion h, fun h => GoOut.noConfusion h⟩
            · obtain ⟨hb2, hrem, _⟩ := chunkStep_done hcs
              subst hb2
              have hlen : b2.length + 5 ≤ b.length := parseRecord_ok_length hp
              exact ih b2 (by omega) x
            · exact absurd hcs chunkStep_not_fuel
      · exact ⟨fun h => GoOut.noConfusion h, fun h => GoOut.noConfusion h⟩
      · exact ⟨fun h => GoOut.noConfusion h, fun h => GoOut.noConfusion h⟩
      · rcases ht : trailerStep d rest with ⟨r2, ph2, b2⟩ | ⟨r2, b2⟩ | ⟨m2, b2⟩ | b2 | b2
        · exact ⟨fun h => GoOut.noConfusion h, fun h => GoOut.noConfusion h⟩
        · exact ⟨fun h => GoOut.noConfusion h, fun h => GoOut.noConfusion h⟩
        · exact ⟨fun h => GoOut.noConfusion h, fun h => GoOut.noConfusion h⟩
        · have hfalse := trailerStep_append d rest []
          rw [ht] at hfalse
          exact hfalse.elim
        · have hfalse := trailerStep_append d rest []
          rw [ht] at hfalse
          exact hfalse.elim

/-- One-step unfolding of `goRecords` (folding the recursive occurrence
back into `goRecords`). -/
theorem goRecords_unfold (cfg : McapCfg) (b : List Nat) :
    goRecords cfg b =
      match parseRecord b with
      | .needBytes => .yieldOut none .records b
      | .fail m => .errOut m b
      | .ok r rest =>
        match r with
        | .chunk comp ds data =>
          if cfg.includeChunks = true then
            .yieldOut (some (McapRecord.chunk comp ds data)) (.chunkYielded comp ds data) rest
          else
            match chunkEval cfg comp ds data with
            | .error m => .errOut m rest
            | .ok data2 =>
              match chunkStep data2 rest with
              | .chunkDone b2 => goRecords cfg b2
              | out => out
        | .footer fdata => trailerStep fdata rest
        | other => .yieldOut (some other) .records rest := by
  unfold goRecords
  simp only [goRecordsF]
  rcases hp : parseRecord b with _ | m | ⟨r, rest⟩ <;> dsimp only
  rcases r with d | d | ⟨comp, ds, data⟩ | d | d | d <;> dsimp only
  by_cases hic : cfg.includeChunks = true
  · rw [if_pos hic, if_pos hic]
  · rw [if_neg hic, if_neg hic]
    rcases hce : chunkEval cfg comp ds data with m2 | data2 <;> dsimp only
    rcases hcs : chunkStep data2 rest with ⟨r2, ph2, b2⟩ | ⟨r2, b2⟩ | ⟨m2, b2⟩ | b2 | b2 <;>
      dsimp only
    obtain ⟨hb2, hdz, _⟩ := chunkStep_done hcs
    subst hb2
    have hlen : b2.length + 5 ≤ b.length := parseRecord_ok_length hp
    exact goRecordsF_irrel cfg b.length (b2.length + 1) b2 (by omega) (by omega)

/-- How the main loop reacts to extra bytes appended to the buffer: a
yielded record and a thrown error are stable (the extra bytes simply ride
along in the unconsumed remainder); a "need more bytes" yield continues,
on the extended buffer, exactly from the recorded suspension point; a
return (footer accepted) turns into the trailing-data error as soon as any
byte follows. -/
theorem goRecords_append (cfg : McapCfg) :
    ∀ n b, b.length ≤ n → ∀ e : List Nat,
      match goRecords cfg b with
      | .yieldOut (some r) ph b2 => goRecords cfg (b ++ e) = .yieldOut (some r) ph (b2 ++ e)
      | .yieldOut none ph b2 => goRecords cfg (b ++ e) = resume cfg ph (b2 ++ e)
      | .errOut m b2 => goRecords cfg (b ++ e) = .errOut m (b2 ++ e)
      | .retOut r b2 => b2 = [] ∧ goRecords cfg (b ++ e) =
          (if e = [] then .retOut r []
           else .errOut "bytes remaining after MCAP footer and trailing magic" e)
      | .chunkDone _ => True
      | .fuelOut _ => True := by
  intro n
  induction n with
  | zero =>
    intro b hb e
    have hb0 : b = [] := List.length_eq_zero.mp (Nat.le_zero.mp hb)
    subst hb0
    rw [goRecords_unfold]
    dsimp only [parseRecord]
    rfl
  | succ n ih =>
    intro b hb e
    rw [goRecords_unfold]
    rcases hp : parseRecord b with _ | m | ⟨r, rest⟩ <;> dsimp only
    · rfl
    · rw [goRecords_unfold cfg (b ++ e), parseRecord_append_fail hp]
    · have hrest : rest.length + 5 ≤ b.length := parseRecord_ok_length hp
      rcases r with d | d | ⟨comp, ds, data⟩ | d | d | d <;> dsimp only
      · rw [goRecords_unfold cfg (b ++ e), parseRecord_append_ok hp]
      · rw [goRecords_unfold cfg (b ++ e), parseRecord_append_ok hp]
      · by_cases hic : cfg.includeChunks = true
        · rw [if_pos hic]
          dsimp only
          rw [goRecords_unfold cfg (b ++ e), parseRecord_append_ok hp]
          dsimp only
          rw [if_pos hic]
        · rw [if_neg hic]
          rcases hce : chunkEval cfg comp ds data with m2 | data2 <;> dsimp only
          · rw [goRecords_unfold cfg (b ++ e), parseRecord_append_ok hp]
            dsimp only
            rw [if_neg hic, hce]
          · rcases hcs : chunkStep data2 rest with ⟨r2, ph2, b2⟩ | ⟨r2, b2⟩ | ⟨m2, b2⟩ | b2 | b2 <;>
              dsimp only
            · obtain ⟨hb2, ⟨r0, rest2, hr0, hph, hpr, hforb⟩, hstep⟩ := chunkStep_yield hcs
              subst hb2
              subst hr0
              dsimp only
              rw [goRecords_unfold cfg (b ++ e), parseRecord_append_ok hp]
              dsimp only
              rw [if_neg hic, hce]
              dsimp only
              rw [hstep (b2 ++ e)]
            · exact absurd hcs chunkStep_not_ret
            · obtain ⟨hb2, hstep⟩ := chunkStep_err hcs
              subst hb2
              rw [goRecords_unfold cfg (b ++ e), parseRecord_append_ok hp]
              dsimp only
              rw [if_neg hic, hce]
              dsimp only
              rw [hstep (b2 ++ e)]
            · obtain ⟨hb2, hdz, hstep⟩ := chunkStep_done hcs
              subst hb2
              have hEq : goRecords cfg (b ++ e) = goRecords cfg (b2 ++ e) := by
                rw [goRecords_unfold cfg (b ++ e), parseRecord_append_ok hp]
                dsimp only
                rw [if_neg hic, hce]
                dsimp only
                rw [hstep (b2 ++ e)]
              simp only [hEq]
              exact ih b2 (by omega) e
      · rw [goRecords_unfold cfg (b ++ e), parseRecord_append_ok hp]
      · rw [goRecords_unfold cfg (b ++ e), parseRecord_append_ok hp]
      · rcases ht : trailerStep d rest with ⟨r2, ph2, b2⟩ | ⟨r2, b2⟩ | ⟨m2, b2⟩ | b2 | b2
        · have hsh := trailerStep_append d rest e
          rw [ht] at hsh
          dsimp only at hsh
          obtain ⟨hr2, hph, hb2⟩ := hsh
          subst hr2
          subst hph
          dsimp only
          rw [hb2, goRecords_unfold cfg (b ++ e), parseRecord_append_ok hp]
          rfl
        · have hsh := trailerStep_append d rest e
          rw [ht] at hsh
          dsimp only at hsh
          obtain ⟨hr2, hb2, hstep⟩ := hsh
          subst hr2
          subst hb2
          dsimp only
          refine ⟨rfl, ?_⟩
          rw [goRecords_unfold cfg (b ++ e), parseRecord_append_ok hp]
          dsimp only
          exact hstep
        · have hsh := trailerStep_append d rest e
          rw [ht] at hsh
          dsimp only at hsh
          dsimp only
          rw [goRecords_unfold cfg (b ++ e), parseRecord_append_ok hp]
          dsimp only
          exact hsh
        · trivial
        · trivial

/-- `goRecords_append` lifted to `resume`: how one generator step from any
suspension point reacts to extra bytes appended to the main buffer. -/
theorem resume_append (cfg : McapCfg) (ph : Phase) (b e : List Nat) :
    match resume cfg ph b with
    | .yieldOut (some r) ph2 b2 => resume cfg ph (b ++ e) = .yieldOut (some r) ph2 (b2 ++ e)
    | .yieldOut none ph2 b2 => resume cfg ph (b ++ e) = resume cfg ph2 (b2 ++ e)
    | .errOut m b2 => resume cfg ph (b ++ e) = .errOut m (b2 ++ e)
    | .retOut r b2 => b2 = [] ∧ resume cfg ph (b ++ e) =
        (if e = [] then .retOut r []
         else .errOut "bytes remaining after MCAP footer and trailing magic" e)
    | .chunkDone _ => True
    | .fuelOut _ => True := by
  cases ph with
  | start =>
    rcases hm : parseMagic b with _ | _ | rest
    · have h1 : resume cfg .start b = .yieldOut none .start b := by
        simp only [resume]
        rw [hm]
      rw [h1]
    · have h1 : resume cfg .start b = .errOut "bad magic" b := by
        simp only [resume]
        rw [hm]
      have h2 : resume cfg .start (b ++ e) = .errOut "bad magic" (b ++ e) := by
        simp only [resume]
        rw [parseMagic_append_bad hm]
      rw [h1]
      exact h2
    · have h1 : resume cfg .start b = goRecords cfg rest := by
        simp only [resume]
        rw [hm]
      have h2 : resume cfg .start (b ++ e) = goRecords cfg (rest ++ e) := by
        simp only [resume]
        rw [parseMagic_append_good hm]
      rw [h1]
      simp only [h2]
      exact goRecords_append cfg rest.length rest le_rfl e
  | records =>
    have h1 : resume cfg .records b = goRecords cfg b := rfl
    have h2 : resume cfg .records (b ++ e) = goRecords cfg (b ++ e) := rfl
    rw [h1]
    simp only [h2]
    exact goRecords_append cfg b.length b le_rfl e
  | chunkYielded comp ds data =>
    rcases hce : chunkEval cfg comp ds data with m | data2
    · have h1 : resume cfg (.chunkYielded comp ds data) b = .errOut m b := by
        simp only [resume]
        rw [hce]
      have h2 : resume cfg (.chunkYielded comp ds data) (b ++ e) = .errOut m (b ++ e) := by
        simp only [resume]
        rw [hce]
      rw [h1]
      exact h2
    · rcases hcs : chunkStep data2 b with ⟨r2, ph2, b2⟩ | ⟨r2, b2⟩ | ⟨m2, b2⟩ | b2 | b2
      · obtain ⟨hb2, ⟨r0, rest2, hr0, hph, hpr, hforb⟩, hstep⟩ := chunkStep_yield hcs
        subst hr0
        subst hb2
        have h1 : resume cfg (.chunkYielded comp ds data) b2 = .yieldOut (some r0) ph2 b2 := by
          simp only [resume]
          rw [hce]
          dsimp only
          rw [hstep b2]
        have h2 : resume cfg (.chunkYielded comp ds data) (b2 ++ e) =
            .yieldOut (some r0) ph2 (b2 ++ e) := by
          simp only [resume]
          rw [hce]
          dsimp only
          rw [hstep (b2 ++ e)]
        rw [h1]
        exact h2
      · exact absurd hcs chunkStep_not_ret
      · obtain ⟨hb2, hstep⟩ := chunkStep_err hcs
        subst hb2
        have h1 : resume cfg (.chunkYielded comp ds data) b2 = .errOut m2 b2 := by
          simp only [resume]
          rw [hce]
          dsimp only
          rw [hstep b2]
        have h2 : resume cfg (.chunkYielded comp ds data) (b2 ++ e) = .errOut m2 (b2 ++ e) := by
          simp only [resume]
          rw [hce]
          dsimp only
          rw [hstep (b2 ++ e)]
        rw [h1]
        exact h2
      · obtain ⟨hb2, hdz, hstep⟩ := chunkStep_done hcs
        subst hb2
        have h1 : resume cfg (.chunkYielded comp ds data) b2 = goRecords cfg b2 := by
          simp only [resume]
          rw [hce]
          dsimp only
          rw [hstep b2]
        have h2 : resume cfg (.chunkYielded comp ds data) (b2 ++ e) = goRecords cfg (b2 ++ e) := by
          simp only [resume]
          rw [hce]
          dsimp only
          rw [hstep (b2 ++ e)]
        rw [h1]
        simp only [h2]
        exact goRecords_append cfg b2.length b2 le_rfl e
      · exact absurd hcs chunkStep_not_fuel
  | inChunk rem =>
    rcases hcs : chunkStep rem b with ⟨r2, ph2, b2⟩ | ⟨r2, b2⟩ | ⟨m2, b2⟩ | b2 | b2
    · obtain ⟨hb2, ⟨r0, rest2, hr0, hph, hpr, hforb⟩, hstep⟩ := chunkStep_yield hcs
      subst hr0
      subst hb2
      have h1 : resume cfg (.inChunk rem) b2 = .yieldOut (some r0) ph2 b2 := by
        simp only [resume]
        rw [hstep b2]
      have h2 : resume cfg (.inChunk rem) (b2 ++ e) = .yieldOut (some r0) ph2 (b2 ++ e) := by
        simp only [resume]
        rw [hstep (b2 ++ e)]
      rw [h1]
      exact h2
    · exact absurd hcs chunkStep_not_ret
    · obtain ⟨hb2, hstep⟩ := chunkStep_err hcs
      subst hb2
      have h1 : resume cfg (.inChunk rem) b2 = .errOut m2 b2 := by
        simp only [resume]
        rw [hstep b2]
      have h2 : resume cfg (.inChunk rem) (b2 ++ e) = .errOut m2 (b2 ++ e) := by
        simp only [resume]
        rw [hstep (b2 ++ e)]
      rw [h1]
      exact h2
    · obtain ⟨hb2, hdz, hstep⟩ := chunkStep_done hcs
      subst hb2
      have h1 : resume cfg (.inChunk rem) b2 = goRecords cfg b2 := by
        simp only [resume]
        rw [hstep b2]
      have h2 : resume cfg (.inChunk rem) (b2 ++ e) = goRecords cfg (b2 ++ e) := by
        simp only [resume]
        rw [hstep (b2 ++ e)]
      rw [h1]
      simp only [h2]
      exact goRecords_append cfg b2.length b2 le_rfl e
    · exact absurd hcs chunkStep_not_fuel
  | trailer f =>
    have hsh := trailerStep_append f b e
    have h1 : resume cfg (.trailer f) b = trailerStep f b := rfl
    have h2 : resume cfg (.trailer f) (b ++ e) = trailerStep f (b ++ e) := rfl
    rcases ht : trailerStep f b with ⟨r2, ph2, b2⟩ | ⟨r2, b2⟩ | ⟨m2, b2⟩ | b2 | b2 <;>
      rw [ht] at hsh <;> rw [h1, ht]
    · dsimp only at hsh
      obtain ⟨hr2, hph, hb2⟩ := hsh
      subst hr2
      subst hph
      subst hb2
      dsimp only
    · dsimp only at hsh
      obtain ⟨hr2, hb2, hstep⟩ := hsh
      subst hr2
      subst hb2
      dsimp only
      exact ⟨rfl, by rw [h2]; exact hstep⟩
    · dsimp only at hsh
      dsimp only
      rw [h2]
      exact hsh
    · trivial
    · trivial

/-! ### The drain relation

`DrainRel cfg ph b e rs` says: starting the generator at suspension point
`ph` with buffer `b` and calling it repeatedly until it stops yielding
records, it yields exactly the records `rs` (in order, the returned footer
included) and ends in `e` — either suspended needing more bytes, finished
(footer returned), or failed (an error thrown). -/

/-- How a drain run ends. -/
inductive DrainEnd
  | needMore (ph : Phase) (buf : List Nat)
  | finished (buf : List Nat)
  | failed (msg : String) (buf : List Nat)
deriving DecidableEq, Repr

inductive DrainRel (cfg : McapCfg) : Phase → List Nat → DrainEnd → List McapRecord → Prop
  | stop {ph b ph2 b2} : resume cfg ph b = .yieldOut none ph2 b2 →
      DrainRel cfg ph b (.needMore ph2 b2) []
  | fin {ph b r b2} : resume cfg ph b = .retOut r b2 →
      DrainRel cfg ph b (.finished b2) [r]
  | err {ph b m b2} : resume cfg ph b = .errOut m b2 →
      DrainRel cfg ph b (.failed m b2) []
  | step {ph b r ph2 b2 e rs} : resume cfg ph b = .yieldOut (some r) ph2 b2 →
      DrainRel cfg ph2 b2 e rs → DrainRel cfg ph b e (r :: rs)

/-- The drain relation is deterministic (because `resume` is a function). -/
theorem DrainRel_det {cfg : McapCfg} {ph : Phase} {b : List Nat} {e1 e2 : DrainEnd}
    {rs1 rs2 : List McapRecord} (h1 : DrainRel cfg ph b e1 rs1)
    (h2 : DrainRel cfg ph b e2 rs2) : e1 = e2 ∧ rs1 = rs2 := by
  induction h1 generalizing e2 rs2 with
  | stop hr =>
    cases h2 with
    | stop hr2 => rw [hr] at hr2; obtain ⟨_, h, h'⟩ := GoOut.yieldOut.inj hr2; subst h; subst h'; exact ⟨rfl, rfl⟩
    | fin hr2 => rw [hr] at hr2; cases hr2
    | err hr2 => rw [hr] at hr2; cases hr2
    | step hr2 _ => rw [hr] at hr2; obtain ⟨h, _, _⟩ := GoOut.yieldOut.inj hr2; cases h
  | fin hr =>
    cases h2 with
    | stop hr2 => rw [hr] at hr2; cases hr2
    | fin hr2 => rw [hr] at hr2; obtain ⟨h, h'⟩ := GoOut.retOut.inj hr2; subst h; subst h'; exact ⟨rfl, rfl⟩
    | err hr2 => rw [hr] at hr2; cases hr2
    | step hr2 _ => rw [hr] at hr2; cases hr2
  | err hr =>
    cases h2 with
    | stop hr2 => rw [hr] at hr2; cases hr2
    | fin hr2 => rw [hr] at hr2; cases hr2
    | err hr2 => rw [hr] at hr2; obtain ⟨h, h'⟩ := GoOut.errOut.inj hr2; subst h; subst h'; exact ⟨rfl, rfl⟩
    | step hr2 _ => rw [hr] at hr2; cases hr2
  | step hr htail ih =>
    cases h2 with
    | stop hr2 => rw [hr] at hr2; obtain ⟨h, _, _⟩ := GoOut.yieldOut.inj hr2; cases h
    | fin hr2 => rw [hr] at hr2; cases hr2
    | err hr2 => rw [hr] at hr2; cases hr2
    | step hr2 htail2 =>
      rw [hr] at hr2
      obtain ⟨h, h', h''⟩ := GoOut.yieldOut.inj hr2
      obtain h := Option.some.inj h
      subst h; subst h'; subst h''
      obtain ⟨he, hrs⟩ := ih htail2
      exact ⟨he, by rw [hrs]⟩

/-- With the default configuration, `chunkEval` succeeds only for the empty
compression name, returning the data unchanged. -/
theorem chunkEval_default {comp : List Nat} {ds : Nat} {data data2 : List Nat}
    (h : chunkEval defaultCfg comp ds data = .ok data2) : comp = [] ∧ data2 = data := by
  unfold chunkEval at h
  by_cases hc : comp = []
  · rw [if_pos hc] at h
    exact ⟨hc, (Except.ok.inj h).symm⟩
  · rw [if_neg hc] at h
    cases h

theorem parseChunkPayload_ok_length {payload comp : List Nat} {ds : Nat} {data : List Nat}
    (h : parseChunkPayload payload = .ok (comp, ds, data)) :
    data.length + 5 ≤ payload.length := by
  match payload with
  | [] => simp [parseChunkPayload] at h
  | n :: rest1 =>
    unfold parseChunkPayload at h
    dsimp only at h
    by_cases hl : rest1.length < n
    · rw [if_pos hl] at h; cases h
    · rw [if_neg hl] at h
      rcases hd : rest1.drop n with _ | ⟨a, tl1⟩
      · rw [hd] at h; cases h
      · rcases tl1 with _ | ⟨b2, tl2⟩
        · rw [hd] at h; cases h
        · rcases tl2 with _ | ⟨c, tl3⟩
          · rw [hd] at h; cases h
          · rcases tl3 with _ | ⟨d, data2⟩
            · rw [hd] at h; cases h
            · rw [hd] at h
              dsimp only at h
              simp only [Except.ok.injEq, Prod.mk.injEq] at h
              obtain ⟨h1, h2, h3⟩ := h
              subst h3
              have hlen : (rest1.drop n).length = rest1.length - n := List.length_drop n rest1
              rw [hd] at hlen
              simp only [List.length_cons] at hlen ⊢
              omega

theorem parseBody_ok_chunk {t : Nat} {p comp : List Nat} {ds : Nat} {data : List Nat}
    (h : parseBody t p = .ok (.chunk comp ds data)) :
    parseChunkPayload p = .ok (comp, ds, data) := by
  unfold parseBody at h
  match t, h with
  | 1, h => simp at h
  | 2, h => simp at h
  | 3, h =>
    revert h
    rcases hcp : parseChunkPayload p with m | ⟨c2, d2, t2⟩ <;> intro h <;> dsimp only at h
    · cases h
    · simp only [Except.ok.injEq, McapRecord.chunk.injEq] at h
      obtain ⟨h1, h2, h3⟩ := h
      subst h1; subst h2; subst h3
      rfl
  | 4, h => simp at h
  | 5, h => simp at h
  | 6, h => simp at h
  | n + 7, h => simp at h

theorem parseRecord_chunk_bound {b comp : List Nat} {ds : Nat} {data rest : List Nat}
    (h : parseRecord b = .ok (.chunk comp ds data) rest) :
    rest.length + data.length + 10 ≤ b.length := by
  match b with
  | [] => simp [parseRecord] at h
  | [t] => simp [parseRecord] at h
  | [t, a] => simp [parseRecord] at h
  | [t, a, b2] => simp [parseRecord] at h
  | [t, a, b2, c] => simp [parseRecord] at h
  | t :: a :: b2 :: c :: d :: rest0 =>
    unfold parseRecord at h
    dsimp only at h
    by_cases hl : rest0.length < readLE4 a b2 c d
    · simp [hl] at h
    · rw [if_neg hl] at h
      revert h
      rcases hpb : parseBody t (rest0.take (readLE4 a b2 c d)) with m | r0 <;> intro h <;>
        dsimp only at h
      · cases h
      · obtain ⟨hr0, hrest⟩ := ParseOut.ok.inj h
        subst hr0
        have hcp := parseBody_ok_chunk hpb
        have hplen := parseChunkPayload_ok_length hcp
        have htake : (rest0.take (readLE4 a b2 c d)).length = readLE4 a b2 c d := by
          simp [List.length_take]
          omega
        rw [htake] at hplen
        subst hrest
        simp only [List.length_drop, List.length_cons]
        omega

/-- The drain measure contribution of a suspension point: the not yet
consumed chunk bytes it still has to work through. -/
def phaseExtra : Phase → Nat
  | .inChunk rem => rem.length + 1
  | .chunkYielded _ _ data => data.length + 11
  | _ => 0

/-- With the default configuration, every record yielded by the main loop
strictly shrinks the drain measure (buffer plus pending chunk bytes). -/
theorem goRecords_bound :
    ∀ n b, b.length ≤ n → ∀ {r : McapRecord} {ph2 : Phase} {b2 : List Nat},
      goRecords defaultCfg b = .yieldOut (some r) ph2 b2 →
      b2.length + phaseExtra ph2 < b.length := by
  intro n
  induction n with
  | zero =>
    intro b hb r ph2 b2 h
    have hb0 : b = [] := List.length_eq_zero.mp (Nat.le_zero.mp hb)
    subst hb0
    rw [goRecords_unfold] at h
    dsimp only [parseRecord] at h
    cases h
  | succ n ih =>
    intro b hb r ph2 b2 h
    rw [goRecords_unfold] at h
    rcases hp : parseRecord b with _ | m | ⟨r0, rest⟩ <;> rw [hp] at h <;> dsimp only at h
    · cases h
    · cases h
    · have hrest : rest.length + 5 ≤ b.length := parseRecord_ok_length hp
      rcases r0 with d | d | ⟨comp, ds, data⟩ | d | d | d <;> dsimp only at h
      · obtain ⟨_, hph, hb2⟩ := GoOut.yieldOut.inj h
        subst hph; subst hb2
        simp only [phaseExtra]
        omega
      · obtain ⟨_, hph, hb2⟩ := GoOut.yieldOut.inj h
        subst hph; subst hb2
        simp only [phaseExtra]
        omega
      · rw [if_neg (by decide : ¬ defaultCfg.includeChunks = true)] at h
        rcases hce : chunkEval defaultCfg comp ds data with m2 | data2 <;> rw [hce] at h <;>
          dsimp only at h
        · cases h
        · obtain ⟨hcomp, hdata2⟩ := chunkEval_default hce
          subst hdata2
          have hchunk : rest.length + data2.length + 10 ≤ b.length := parseRecord_chunk_bound hp
          rcases hcs : chunkStep data2 rest with ⟨r2, ph3, b3⟩ | ⟨r2, b3⟩ | ⟨m2, b3⟩ | b3 | b3 <;>
            rw [hcs] at h <;> dsimp only at h
          · obtain ⟨hr2, hph3, hb3⟩ := GoOut.yieldOut.inj h
            obtain ⟨hb3', ⟨rr, rest2, hr2', hph3', hpr2, -⟩, -⟩ := chunkStep_yield hcs
            subst hb3'
            subst hph3'
            subst hph3
            subst hb3
            have hnest : rest2.length + 5 ≤ data2.length := parseRecord_ok_length hpr2
            simp only [phaseExtra]
            omega
          · cases h
          · cases h
          · obtain ⟨hb3, hdz, -⟩ := chunkStep_done hcs
            subst hb3
            have hrec := ih b3 (by omega) h
            omega
          · cases h
      · obtain ⟨_, hph, hb2⟩ := GoOut.yieldOut.inj h
        subst hph; subst hb2
        simp only [phaseExtra]
        omega
      · obtain ⟨_, hph, hb2⟩ := GoOut.yieldOut.inj h
        subst hph; subst hb2
        simp only [phaseExtra]
        omega
      · rcases ht : trailerStep d rest with ⟨r2, ph3, b3⟩ | ⟨r2, b3⟩ | ⟨m2, b3⟩ | b3 | b3 <;>
          rw [ht] at h
        · have hsh := trailerStep_append d rest []
          rw [ht] at hsh
          dsimp only at hsh
          obtain ⟨hr2, -, -⟩ := hsh
          subst hr2
          obtain ⟨hno, -, -⟩ := GoOut.yieldOut.inj h
          cases hno
        · cases h
        · cases h
        · cases h
        · cases h

/-- `goRecords_bound` lifted to `resume`: with the default configuration
every yielded record strictly shrinks the drain measure. -/
theorem resume_bound {ph : Phase} {b : List Nat} {r : McapRecord} {ph2 : Phase} {b2 : List Nat}
    (h : resume defaultCfg ph b = .yieldOut (some r) ph2 b2) :
    b2.length + phaseExtra ph2 < b.length + phaseExtra ph := by
  cases ph with
  | start =>
    rcases hm : parseMagic b with _ | _ | rest
    · have h1 : resume defaultCfg .start b = .yieldOut none .start b := by
        simp only [resume]
        rw [hm]
      rw [h1] at h
      obtain ⟨hc, -, -⟩ := GoOut.yieldOut.inj h
      cases hc
    · have h1 : resume defaultCfg .start b = .errOut "bad magic" b := by
        simp only [resume]
        rw [hm]
      rw [h1] at h
      cases h
    · have h1 : resume defaultCfg .start b = goRecords defaultCfg rest := by
        simp only [resume]
        rw [hm]
      rw [h1] at h
      have hlen := parseMagic_good_length hm
      have := goRecords_bound rest.length rest le_rfl h
      have hpe : phaseExtra Phase.start = 0 := rfl
      omega
  | records =>
    have h1 : resume defaultCfg .records b = goRecords defaultCfg b := rfl
    rw [h1] at h
    have := goRecords_bound b.length b le_rfl h
    have hpe : phaseExtra Phase.records = 0 := rfl
    omega
  | chunkYielded comp ds data =>
    rcases hce : chunkEval defaultCfg comp ds data with m | data2
    · have h1 : resume defaultCfg (.chunkYielded comp ds data) b = .errOut m b := by
        simp only [resume]
        rw [hce]
      rw [h1] at h
      cases h
    · obtain ⟨hcomp, hdata2⟩ := chunkEval_default hce
      subst hdata2
      rcases hcs : chunkStep data2 b with ⟨r2, ph3, b3⟩ | ⟨r2, b3⟩ | ⟨m2, b3⟩ | b3 | b3
      · obtain ⟨hb3, ⟨rr, rest2, hr2, hph3, hpr2, -⟩, hstep⟩ := chunkStep_yield hcs
        subst hb3
        subst hr2
        subst hph3
        have h1 : resume defaultCfg (.chunkYielded comp ds data2) b3 =
            .yieldOut (some rr) (.inChunk rest2) b3 := by
          simp only [resume]
          rw [hce]
          dsimp only
          rw [hstep b3]
        rw [h1] at h
        obtain ⟨hr, hph, hb⟩ := GoOut.yieldOut.inj h
        subst hph
        subst hb
        have hnest : rest2.length + 5 ≤ data2.length := parseRecord_ok_length hpr2
        simp only [phaseExtra]
        omega
      · exact absurd hcs chunkStep_not_ret
      · obtain ⟨hb3, hstep⟩ := chunkStep_err hcs
        subst hb3
        have h1 : resume defaultCfg (.chunkYielded comp ds data2) b3 = .errOut m2 b3 := by
          simp only [resume]
          rw [hce]
          dsimp only
          rw [hstep b3]
        rw [h1] at h
        cases h
      · obtain ⟨hb3, hdz, hstep⟩ := chunkStep_done hcs
        subst hb3
        have h1 : resume defaultCfg (.chunkYielded comp ds data2) b3 = goRecords defaultCfg b3 := by
          simp only [resume]
          rw [hce]
          dsimp only
          rw [hstep b3]
        rw [h1] at h
        have := goRecords_bound b3.length b3 le_rfl h
        have hpe : phaseExtra (Phase.chunkYielded comp ds data2) = data2.length + 11 := rfl
        omega
      · exact absurd hcs chunkStep_not_fuel
  | inChunk rem =>
    rcases hcs : chunkStep rem b with ⟨r2, ph3, b3⟩ | ⟨r2, b3⟩ | ⟨m2, b3⟩ | b3 | b3
    · obtain ⟨hb3, ⟨rr, rest2, hr2, hph3, hpr2, -⟩, hstep⟩ := chunkStep_yield hcs
      subst hb3
      subst hr2
      subst hph3
      have h1 : resume defaultCfg (.inChunk rem) b3 = .yieldOut (some rr) (.inChunk rest2) b3 := by
        simp only [resume]
        rw [hstep b3]
      rw [h1] at h
      obtain ⟨hr, hph, hb⟩ := GoOut.yieldOut.inj h
      subst hph
      subst hb
      have hnest : rest2.length + 5 ≤ rem.length := parseRecord_ok_length hpr2
      simp only [phaseExtra]
      omega
    · exact absurd hcs chunkStep_not_ret
    · obtain ⟨hb3, hstep⟩ := chunkStep_err hcs
      subst hb3
      have h1 : resume defaultCfg (.inChunk rem) b3 = .errOut m2 b3 := by
        simp only [resume]
        rw [hstep b3]
      rw [h1] at h
      cases h
    · obtain ⟨hb3, hdz, hstep⟩ := chunkStep_done hcs
      subst hb3
      have h1 : resume defaultCfg (.inChunk rem) b3 = goRecords defaultCfg b3 := by
        simp only [resume]
        rw [hstep b3]
      rw [h1] at h
      have := goRecords_bound b3.length b3 le_rfl h
      have hpe : phaseExtra (Phase.inChunk rem) = rem.length + 1 := rfl
      omega
    · exact absurd hcs chunkStep_not_fuel
  | trailer f =>
    have h1 : resume defaultCfg (.trailer f) b = trailerStep f b := rfl
    rw [h1] at h
    have hsh := trailerStep_append f b []
    rw [h] at hsh
    dsimp only at hsh
    obtain ⟨hc, -, -⟩ := hsh
    cases hc

/-- `resume` never returns the internal `chunkDone` continuation, and never
runs out of fuel. -/
theorem resume_not_stuck (cfg : McapCfg) (ph : Phase) (b : List Nat) :
    ∀ x, resume cfg ph b ≠ .chunkDone x ∧ resume cfg ph b ≠ .fuelOut x := by
  have hgo : ∀ (b2 : List Nat) x, goRecords cfg b2 ≠ .chunkDone x ∧ goRecords cfg b2 ≠ .fuelOut x := by
    intro b2 x
    have := goRecordsF_no_fuelOut cfg (b2.length + 1) b2 (by omega) x
    exact ⟨this.2, this.1⟩
  cases ph with
  | start =>
    intro x
    rcases hm : parseMagic b with _ | _ | rest
    · have h1 : resume cfg .start b = .yieldOut none .start b := by
        simp only [resume]; rw [hm]
      rw [h1]
      exact ⟨fun h => GoOut.noConfusion h, fun h => GoOut.noConfusion h⟩
    · have h1 : resume cfg .start b = .errOut "bad magic" b := by
        simp only [resume]; rw [hm]
      rw [h1]
      exact ⟨fun h => GoOut.noConfusion h, fun h => GoOut.noConfusion h⟩
    · have h1 : resume cfg .start b = goRecords cfg rest := by
        simp only [resume]; rw [hm]
      rw [h1]
      exact hgo rest x
  | records =>
    intro x
    exact hgo b x
  | chunkYielded comp ds data =>
    intro x
    rcases hce : chunkEval cfg comp ds data with m | data2
    · have h1 : resume cfg (.chunkYielded comp ds data) b = .errOut m b := by
        simp only [resume]; rw [hce]
      rw [h1]
      exact ⟨fun h => GoOut.noConfusion h, fun h => GoOut.noConfusion h⟩
    · rcases hcs : chunkStep data2 b with ⟨r2, ph3, b3⟩ | ⟨r2, b3⟩ | ⟨m2, b3⟩ | b3 | b3
      · obtain ⟨hb3, -, hstep⟩ := chunkStep_yield hcs
        have h1 : resume cfg (.chunkYielded comp ds data) b = .yieldOut r2 ph3 b := by
          simp only [resume]; rw [hce]; dsimp only; rw [hstep b]
        rw [h1]
        exact ⟨fun h => GoOut.noConfusion h, fun h => GoOut.noConfusion h⟩
      · exact absurd hcs chunkStep_not_ret
      · obtain ⟨hb3, hstep⟩ := chunkStep_err hcs
        have h1 : resume cfg (.chunkYielded comp ds data) b = .errOut m2 b := by
          simp only [resume]; rw [hce]; dsimp only; rw [hstep b]
        rw [h1]
        exact ⟨fun h => GoOut.noConfusion h, fun h => GoOut.noConfusion h⟩
      · obtain ⟨hb3, hdz, hstep⟩ := chunkStep_done hcs
        have h1 : resume cfg (.chunkYielded comp ds data) b = goRecords cfg b := by
          simp only [resume]; rw [hce]; dsimp only; rw [hstep b]
        rw [h1]
        exact hgo b x
      · exact absurd hcs chunkStep_not_fuel
  | inChunk rem =>
    intro x
    rcases hcs : chunkStep rem b with ⟨r2, ph3, b3⟩ | ⟨r2, b3⟩ | ⟨m2, b3⟩ | b3 | b3
    · obtain ⟨hb3, -, hstep⟩ := chunkStep_yield hcs
      have h1 : resume cfg (.inChunk rem) b = .yieldOut r2 ph3 b := by
        simp only [resume]; rw [hstep b]
      rw [h1]
      exact ⟨fun h => GoOut.noConfusion h, fun h => GoOut.noConfusion h⟩
    · exact absurd hcs chunkStep_not_ret
    · obtain ⟨hb3, hstep⟩ := chunkStep_err hcs
      have h1 : resume cfg (.inChunk rem) b = .errOut m2 b := by
        simp only [resume]; rw [hstep b]
      rw [h1]
      exact ⟨fun h => GoOut.noConfusion h, fun h => GoOut.noConfusion h⟩
    · obtain ⟨hb3, hdz, hstep⟩ := chunkStep_done hcs
      have h1 : resume cfg (.inChunk rem) b = goRecords cfg b := by
        simp only [resume]; rw [hstep b]
      rw [h1]
      exact hgo b x
    · exact absurd hcs chunkStep_not_fuel
  | trailer f =>
    intro x
    have h1 : resume cfg (.trailer f) b = trailerStep f b := rfl
    rw [h1]
    rcases ht : trailerStep f b with ⟨r2, ph3, b3⟩ | ⟨r2, b3⟩ | ⟨m2, b3⟩ | b3 | b3
    · exact ⟨fun h => GoOut.noConfusion h, fun h => GoOut.noConfusion h⟩
    · exact ⟨fun h => GoOut.noConfusion h, fun h => GoOut.noConfusion h⟩
    · exact ⟨fun h => GoOut.noConfusion h, fun h => GoOut.noConfusion h⟩
    · have hsh := trailerStep_append f b []
      rw [ht] at hsh
      exact hsh.elim
    · have hsh := trailerStep_append f b []
      rw [ht] at hsh
      exact hsh.elim

/-! ### The executable drain

`drain` is what the feeding protocol actually runs: call the generator
repeatedly, collecting yielded records, until it reports "need more
bytes", returns, or throws.  It is fuelled (structural recursion) so that
concrete runs compute by `decide`; `drain_total` shows the fuel
`drainFuel` always suffices for the default configuration and that the
result is exactly the `DrainRel` run. -/

/-- Result of draining: the records collected so far plus how it ended
(`spent` is the fuel-exhaustion artifact, unreachable from reachable
states under the default configuration by `drain_total`). -/
inductive DrainOut
  | needMore (acc : List McapRecord) (ph : Phase) (buf : List Nat)
  | finished (acc : List McapRecord) (buf : List Nat)
  | failed (msg : String) (acc : List McapRecord) (buf : List Nat)
  | spent (acc : List McapRecord) (ph : Phase) (buf : List Nat)
deriving DecidableEq, Repr

def drainF (cfg : McapCfg) : Nat → Phase → List Nat → List McapRecord → DrainOut
  | 0, ph, b, acc => .spent acc ph b
  | fuel + 1, ph, b, acc =>
    match resume cfg ph b with
    | .yieldOut none ph2 b2 => .needMore acc ph2 b2
    | .yieldOut (some r) ph2 b2 => drainF cfg fuel ph2 b2 (acc ++ [r])
    | .retOut r b2 => .finished (acc ++ [r]) b2
    | .errOut m b2 => .failed m acc b2
    | .chunkDone b2 => .spent acc ph b2
    | .fuelOut b2 => .spent acc ph b2

/-- Sufficient fuel for a drain from the given suspension point. -/
def drainFuel (ph : Phase) (b : List Nat) : Nat := b.length + phaseExtra ph + 1

def drain (cfg : McapCfg) (ph : Phase) (b : List Nat) (acc : List McapRecord) : DrainOut :=
  drainF cfg (drainFuel ph b) ph b acc

/-- Package a `DrainEnd` and an accumulator as a `DrainOut`. -/
def drainEndOut : DrainEnd → List McapRecord → DrainOut
  | .needMore ph b, acc => .needMore acc ph b
  | .finished b, acc => .finished acc b
  | .failed m b, acc => .failed m acc b

/-- With the default configuration, draining always terminates within the
fuel: there is a (unique, by `DrainRel_det`) drain run, and `drainF`
computes it. -/
theorem drain_total :
    ∀ n ph b, b.length + phaseExtra ph < n → ∀ acc,
      ∃ e rs, DrainRel defaultCfg ph b e rs ∧
        drainF defaultCfg n ph b acc = drainEndOut e (acc ++ rs) := by
  intro n
  induction n with
  | zero => intro ph b hm; omega
  | succ n ih =>
    intro ph b hm acc
    rcases hr : resume defaultCfg ph b with ⟨r, ph2, b2⟩ | ⟨r, b2⟩ | ⟨m, b2⟩ | b2 | b2
    · rcases r with _ | r0
      · refine ⟨.needMore ph2 b2, [], DrainRel.stop hr, ?_⟩
        simp only [drainF]
        rw [hr]
        simp [drainEndOut]
      · have hbnd := resume_bound hr
        obtain ⟨e, rs, hrel, hout⟩ := ih ph2 b2 (by omega) (acc ++ [r0])
        refine ⟨e, r0 :: rs, DrainRel.step hr hrel, ?_⟩
        simp only [drainF]
        rw [hr]
        dsimp only
        rw [hout]
        congr 1
        simp
    · refine ⟨.finished b2, [r], DrainRel.fin hr, ?_⟩
      simp only [drainF]
      rw [hr]
      dsimp only [drainEndOut]
    · refine ⟨.failed m b2, [], DrainRel.err hr, ?_⟩
      simp only [drainF]
      rw [hr]
      simp [drainEndOut]
    · exact absurd hr (resume_not_stuck defaultCfg ph b b2).1
    · exact absurd hr (resume_not_stuck defaultCfg ph b b2).2

/-- Two drain runs from states with equal `resume` behaviour coincide. -/
theorem DrainRel_congr {cfg : McapCfg} {ph ph' : Phase} {b b' : List Nat}
    (hEq : resume cfg ph b = resume cfg ph' b') {e : DrainEnd} {rs : List McapRecord}
    (h : DrainRel cfg ph' b' e rs) : DrainRel cfg ph b e rs := by
  cases h with
  | stop hr => exact DrainRel.stop (hEq.trans hr)
  | fin hr => exact DrainRel.fin (hEq.trans hr)
  | err hr => exact DrainRel.err (hEq.trans hr)
  | step hr htail => exact DrainRel.step (hEq.trans hr) htail

/-- A drain that stopped needing more bytes composes, after appending
`e`, with the drain from its recorded suspension point. -/
theorem DrainRel_append_needMore {cfg : McapCfg} {ph : Phase} {b : List Nat} {ph2 : Phase}
    {b2 : List Nat} {rs : List McapRecord} (h : DrainRel cfg ph b (.needMore ph2 b2) rs)
    {e : List Nat} {e2 : DrainEnd} {rs2 : List McapRecord}
    (h2 : DrainRel cfg ph2 (b2 ++ e) e2 rs2) :
    DrainRel cfg ph (b ++ e) e2 (rs ++ rs2) := by
  generalize hE : DrainEnd.needMore ph2 b2 = dd at h
  induction h with
  | @stop ph1 b1 ph2x b2x hr =>
    obtain ⟨hph2, hb2⟩ := DrainEnd.needMore.inj hE
    subst hph2
    subst hb2
    have hap := resume_append cfg ph1 b1 e
    rw [hr] at hap
    dsimp only at hap
    simpa using DrainRel_congr hap h2
  | fin hr => cases hE
  | err hr => cases hE
  | @step ph1 b1 r ph3 b3 ee rs0 hr htail ih =>
    have hap := resume_append cfg ph1 b1 e
    rw [hr] at hap
    dsimp only at hap
    exact DrainRel.step hap (ih hE)

/-- A drain that finished (footer returned) ends with an empty buffer;
with any nonempty extra bytes appended, the same run fails with the
trailing-data error instead of returning the footer. -/
theorem DrainRel_append_finished {cfg : McapCfg} {ph : Phase} {b b2 : List Nat}
    {rs : List McapRecord} (h : DrainRel cfg ph b (.finished b2) rs) :
    b2 = [] ∧ ∃ rs2 rlast, rs = rs2 ++ [rlast] ∧ ∀ e : List Nat, e ≠ [] →
      DrainRel cfg ph (b ++ e)
        (.failed "bytes remaining after MCAP footer and trailing magic" e) rs2 := by
  generalize hE : DrainEnd.finished b2 = dd at h
  induction h with
  | stop hr => cases hE
  | fin hr =>
    rename_i ph1 b1 r b2x
    obtain hb2 := DrainEnd.finished.inj hE
    subst hb2
    constructor
    · have hap := resume_append cfg ph1 b1 []
      rw [hr] at hap
      dsimp only at hap
      exact hap.1
    · refine ⟨[], r, by simp, ?_⟩
      intro e he
      have hap := resume_append cfg ph1 b1 e
      rw [hr] at hap
      dsimp only at hap
      obtain ⟨-, hres⟩ := hap
      rw [if_neg he] at hres
      exact DrainRel.err hres
  | err hr => cases hE
  | step hr htail ih =>
    rename_i ph1 b1 r ph3 b3 ee rs0
    obtain ⟨hb2, rs2, rlast, hrs0, hcont⟩ := ih hE
    refine ⟨hb2, r :: rs2, rlast, by rw [hrs0]; rfl, ?_⟩
    intro e he
    have hap := resume_append cfg ph1 b1 e
    rw [hr] at hap
    dsimp only at hap
    exact DrainRel.step hap (hcont e he)

/-- A drain that failed keeps failing identically when extra bytes are
appended (the error does not depend on bytes past the failure point). -/
theorem DrainRel_append_failed {cfg : McapCfg} {ph : Phase} {b : List Nat} {m : String}
    {b2 : List Nat} {rs : List McapRecord} (h : DrainRel cfg ph b (.failed m b2) rs)
    (e : List Nat) : DrainRel cfg ph (b ++ e) (.failed m (b2 ++ e)) rs := by
  generalize hE : DrainEnd.failed m b2 = dd at h
  induction h with
  | stop hr => cases hE
  | fin hr => cases hE
  | err hr =>
    rename_i ph1 b1 m1 b2x
    obtain ⟨hm, hb2⟩ := DrainEnd.failed.inj hE
    subst hm
    subst hb2
    have hap := resume_append cfg ph1 b1 e
    rw [hr] at hap
    dsimp only at hap
    exact DrainRel.err hap
  | step hr htail ih =>
    rename_i ph1 b1 r ph3 b3 ee rs0
    have hap := resume_append cfg ph1 b1 e
    rw [hr] at hap
    dsimp only at hap
    exact DrainRel.step hap (ih hE)

/-! ## Whole streams and fragmented feeding

`encodeStream` is the canonical byte stream for a record sequence: leading
magic, the encoded records, the encoded footer, trailing magic.  Feeding it
fragment-by-fragment models the round-trip scenario: append one fragment,
then call `nextRecord` until it signals "need more bytes" (a drain). -/

/-- Canonical encoding of a whole MCAP stream: leading magic, the encoded
records, the encoded footer record, trailing magic. -/
def encodeStream (rs : List McapRecord) (fdata : List Nat) : List Nat :=
  MCAP_MAGIC ++ ((rs.map encodeRecord).flatten ++ (encodeRecord (.footer fdata) ++ MCAP_MAGIC))

/-- With the default configuration a drain run exists from every
suspension point (totality, extracted from `drain_total`). -/
theorem DrainRel_total (ph : Phase) (b : List Nat) :
    ∃ e rs, DrainRel defaultCfg ph b e rs := by
  obtain ⟨e, rs, hrel, -⟩ :=
    drain_total (b.length + phaseExtra ph + 1) ph b (by omega) []
  exact ⟨e, rs, hrel⟩

/-- Consuming the leading magic: from the `start` phase with the magic in
front, the generator behaves exactly as from the `records` phase on the
rest. -/
theorem resume_start_magic (cfg : McapCfg) (x : List Nat) :
    resume cfg .start (MCAP_MAGIC ++ x) = resume cfg .records x := by
  have h : resume cfg .start (MCAP_MAGIC ++ x) = goRecords cfg x := by
    simp only [resume]
    rw [parseMagic_magic_append]
  rw [h]
  rfl

/-- A directly-yieldable record at the front of the buffer in the
`records` phase is yielded in one step, leaving the rest unconsumed. -/
theorem resume_records_yield (cfg : McapCfg) {r : McapRecord}
    (hy : isYieldKind r = true) (hwf : recEncWF r) (x : List Nat) :
    resume cfg .records (encodeRecord r ++ x) = .yieldOut (some r) .records x := by
  have h0 : resume cfg .records (encodeRecord r ++ x)
      = goRecords cfg (encodeRecord r ++ x) := rfl
  rw [h0, goRecords_unfold, parseRecord_encode r x hwf]
  cases r with
  | channelInfo d => rfl
  | message d => rfl
  | indexData d => rfl
  | chunkInfo d => rfl
  | chunk c ds dt => simp [isYieldKind] at hy
  | footer d => simp [isYieldKind] at hy

/-- The footer record followed by exactly the trailing magic: the generator
returns the footer with an empty remainder. -/
theorem resume_records_footer (cfg : McapCfg) (fdata : List Nat)
    (hwf : fdata.length < 2 ^ 32) :
    resume cfg .records (encodeRecord (.footer fdata) ++ MCAP_MAGIC) =
      .retOut (.footer fdata) [] := by
  have hwf2 : recEncWF (.footer fdata) := ⟨hwf, trivial⟩
  have h0 : resume cfg .records (encodeRecord (.footer fdata) ++ MCAP_MAGIC)
      = goRecords cfg (encodeRecord (.footer fdata) ++ MCAP_MAGIC) := rfl
  rw [h0, goRecords_unfold, parseRecord_encode _ _ hwf2]
  show trailerStep fdata MCAP_MAGIC = _
  have hm : parseMagic MCAP_MAGIC = .good [] := by decide
  unfold trailerStep
  rw [hm]
  rfl

/-- Draining past a block of directly-yieldable records: each is yielded in
turn and the drain continues on the tail. -/
theorem drain_records (cfg : McapCfg) :
    ∀ rs : List McapRecord, (∀ r ∈ rs, isYieldKind r = true ∧ recEncWF r) →
      ∀ tail e ts, DrainRel cfg .records tail e ts →
        DrainRel cfg .records ((rs.map encodeRecord).flatten ++ tail) e (rs ++ ts) := by
  intro rs
  induction rs with
  | nil => intro _ tail e ts h; simpa using h
  | cons r rs ih =>
    intro hall tail e ts h
    have hr := hall r (by simp)
    have hbytes : ((r :: rs).map encodeRecord).flatten ++ tail
        = encodeRecord r ++ ((rs.map encodeRecord).flatten ++ tail) := by
      simp [List.append_assoc]
    rw [hbytes]
    exact DrainRel.step (resume_records_yield cfg hr.1 hr.2 _)
      (ih (fun x hx => hall x (by simp [hx])) tail e ts h)

/-- One-shot characterization: from a fresh decoder, the encoded stream of
yieldable records plus footer drains to exactly those records followed by
the footer, finishing with an empty buffer. -/
theorem drain_stream (rs : List McapRecord) (fdata : List Nat)
    (hall : ∀ r ∈ rs, isYieldKind r = true ∧ recEncWF r)
    (hf : fdata.length < 2 ^ 32) :
    DrainRel defaultCfg .start (encodeStream rs fdata) (.finished [])
      (rs ++ [.footer fdata]) := by
  have hfoot : DrainRel defaultCfg .records
      (encodeRecord (.footer fdata) ++ MCAP_MAGIC) (.finished []) [.footer fdata] :=
    DrainRel.fin (resume_records_footer defaultCfg fdata hf)
  have hrecs := drain_records defaultCfg rs hall _ _ _ hfoot
  exact DrainRel_congr (resume_start_magic defaultCfg _) hrecs

/-- The observable status of a fragment-feeding session: still mid-decode
at a suspension point (`more`), completed (footer returned, reader
`doneReading`), failed with a thrown decode error (sticky — the generator
is completed and yields nothing further), appended after completion (the
source's `append` throws `"Already done reading"`), or the fuel artifact
(`spentS`, unreachable under the default configuration). -/
inductive FeedStatus
  | more (ph : Phase) (buf : List Nat)
  | fin
  | failedS (msg : String)
  | postDone
  | spentS
deriving DecidableEq, Repr

/-- A feeding session: the records produced so far and the status. -/
structure FeedState where
  recs : List McapRecord
  status : FeedStatus
deriving DecidableEq, Repr

/-- A fresh session: no records, generator at the leading magic with an
empty buffer. -/
def initFeed : FeedState := ⟨[], .more .start []⟩

/-- Feed one fragment: append it to the buffer and call `nextRecord` until
the reader signals "need more bytes" (= `drain`).  After completion a
further `append` throws; after a failure the completed generator yields
nothing more, so the status is sticky. -/
def feedOne (cfg : McapCfg) (s : FeedState) (frag : List Nat) : FeedState :=
  match s.status with
  | .more ph b =>
    match drain cfg ph (b ++ frag) s.recs with
    | .needMore acc ph2 b2 => ⟨acc, .more ph2 b2⟩
    | .finished acc _ => ⟨acc, .fin⟩
    | .failed m acc _ => ⟨acc, .failedS m⟩
    | .spent acc _ _ => ⟨acc, .spentS⟩
  | .fin => ⟨s.recs, .postDone⟩
  | _ => s

/-- Feed a list of fragments in order to a fresh session. -/
def runFrags (cfg : McapCfg) (frags : List (List Nat)) : FeedState :=
  frags.foldl (feedOne cfg) initFeed

/-- The feeding induction: if the drain run over the joined remaining
fragments finishes with records `tail`, then feeding those (nonempty)
fragments one at a time collects exactly `tail` and ends in the completed
status. -/
theorem runFrags_aux :
    ∀ (frags : List (List Nat)) (recs tail : List McapRecord) (ph : Phase) (b : List Nat),
      (∀ f ∈ frags, f ≠ []) →
      DrainRel defaultCfg ph (b ++ frags.flatten) (.finished []) tail →
      frags.foldl (feedOne defaultCfg) ⟨recs, .more ph b⟩ =
        if frags = [] then ⟨recs, .more ph b⟩ else ⟨recs ++ tail, .fin⟩ := by
  intro frags
  induction frags with
  | nil => intro recs tail ph b _ _; rfl
  | cons f fs ih =>
    intro recs tail ph b hne hinv
    rw [if_neg (by simp)]
    have hinv2 : DrainRel defaultCfg ph ((b ++ f) ++ fs.flatten) (.finished []) tail := by
      rw [List.append_assoc]
      simpa using hinv
    obtain ⟨e1, rs1, hrel1, hout1⟩ :=
      drain_total (drainFuel ph (b ++ f)) ph (b ++ f) (Nat.lt_succ_self _) recs
    have hdrain : drain defaultCfg ph (b ++ f) recs = drainEndOut e1 (recs ++ rs1) := hout1
    have hstep : List.foldl (feedOne defaultCfg) ⟨recs, .more ph b⟩ (f :: fs)
        = List.foldl (feedOne defaultCfg) (feedOne defaultCfg ⟨recs, .more ph b⟩ f) fs := rfl
    rw [hstep]
    cases e1 with
    | needMore ph2 b2 =>
      have hfeed : feedOne defaultCfg ⟨recs, .more ph b⟩ f = ⟨recs ++ rs1, .more ph2 b2⟩ := by
        unfold feedOne
        dsimp only
        rw [hdrain]
        dsimp only [drainEndOut]
      rw [hfeed]
      obtain ⟨e2, rs2, h2⟩ := DrainRel_total ph2 (b2 ++ fs.flatten)
      have hcomp := DrainRel_append_needMore hrel1 h2
      obtain ⟨he2, hrs⟩ := DrainRel_det hcomp hinv2
      subst he2
      by_cases hfs : fs = []
      · exfalso
        subst hfs
        have hj : (b ++ f) ++ ([] : List (List Nat)).flatten = b ++ f := by simp
        rw [hj] at hinv2
        obtain ⟨hcontra, -⟩ := DrainRel_det hrel1 hinv2
        cases hcontra
      · rw [ih (recs ++ rs1) rs2 ph2 b2 (fun x hx => hne x (by simp [hx])) h2, if_neg hfs]
        rw [List.append_assoc, hrs]
    | finished b2 =>
      have hfeed : feedOne defaultCfg ⟨recs, .more ph b⟩ f = ⟨recs ++ rs1, .fin⟩ := by
        unfold feedOne
        dsimp only
        rw [hdrain]
        dsimp only [drainEndOut]
      rw [hfeed]
      obtain ⟨hb2, rs2, rlast, hsplit, hfailcont⟩ := DrainRel_append_finished hrel1
      by_cases hfs : fs = []
      · subst hfs
        have hj : (b ++ f) ++ ([] : List (List Nat)).flatten = b ++ f := by simp
        rw [hj] at hinv2
        obtain ⟨-, hrs⟩ := DrainRel_det hrel1 hinv2
        simp [hrs]
      · exfalso
        have hjoin_ne : fs.flatten ≠ [] := by
          cases fs with
          | nil => exact absurd rfl hfs
          | cons g gs =>
            have hg : g ≠ [] := hne g (by simp)
            exact fun hcontra => hg (List.append_eq_nil.mp hcontra).1
        have hfail := hfailcont fs.flatten hjoin_ne
        obtain ⟨hcontra, -⟩ := DrainRel_det hfail hinv2
        cases hcontra
    | failed m b2 =>
      exfalso
      have hfail := DrainRel_append_failed hrel1 fs.flatten
      obtain ⟨hcontra, -⟩ := DrainRel_det hfail hinv2
      cases hcontra

/-! ## Client interactions with a reader and error stickiness -/

/-- A client interaction with a reader: append bytes, or request the next
record. -/
inductive ReaderOp
  | app (data : List Nat)
  | next
deriving Repr

/-- Run a sequence of interactions, collecting each `nextRecord` outcome.
An `append` on a done reader throws `"Already done reading"` and leaves
the state unchanged. -/
def runOps (cfg : McapCfg) : McapReaderState → List ReaderOp → List NextOut × McapReaderState
  | s, [] => ([], s)
  | s, .app d :: ops =>
    match appendBytes s d with
    | .ok s2 => runOps cfg s2 ops
    | .error _ => runOps cfg s ops
  | s, .next :: ops =>
    ((nextRecord cfg s).1 :: (runOps cfg (nextRecord cfg s).2 ops).1,
      (runOps cfg (nextRecord cfg s).2 ops).2)

/-- The records among a list of `nextRecord` outcomes. -/
def valsOf (outs : List NextOut) : List McapRecord :=
  outs.filterMap fun o =>
    match o with
    | .val (some r) => some r
    | _ => none

theorem valsOf_cons_none (os : List NextOut) : valsOf (.val none :: os) = valsOf os := rfl

/-- Calling `nextRecord` repeatedly: `n` `next` interactions. -/
def callTrace (cfg : McapCfg) (s : McapReaderState) (n : Nat) :
    List NextOut × McapReaderState :=
  runOps cfg s (List.replicate n .next)

/-- Once the generator has completed (footer returned or error thrown), no
later interaction of any kind ever produces another record, and the
generator stays completed. -/
theorem runOps_genDone (cfg : McapCfg) :
    ∀ (ops : List ReaderOp) (s : McapReaderState), s.genDone = true →
      valsOf (runOps cfg s ops).1 = [] ∧ (runOps cfg s ops).2.genDone = true := by
  intro ops
  induction ops with
  | nil => intro s hg; exact ⟨rfl, hg⟩
  | cons op ops ih =>
    intro s hg
    cases op with
    | app d =>
      by_cases hd : s.doneReading
      · have ha : appendBytes s d = .error "Already done reading" := by
          unfold appendBytes; rw [if_pos hd]
        have hm0 : runOps cfg s (.app d :: ops)
            = match appendBytes s d with
              | .ok s2 => runOps cfg s2 ops
              | .error _ => runOps cfg s ops := rfl
        have hru : runOps cfg s (.app d :: ops) = runOps cfg s ops := by
          rw [hm0, ha]
        rw [hru]; exact ih s hg
      · have ha : appendBytes s d = .ok { s with buffer := s.buffer ++ d } := by
          unfold appendBytes; rw [if_neg hd]
        have hm0 : runOps cfg s (.app d :: ops)
            = match appendBytes s d with
              | .ok s2 => runOps cfg s2 ops
              | .error _ => runOps cfg s ops := rfl
        have hru : runOps cfg s (.app d :: ops)
            = runOps cfg { s with buffer := s.buffer ++ d } ops := by
          rw [hm0, ha]
        rw [hru]; exact ih _ hg
    | next =>
      have hru : runOps cfg s (.next :: ops)
          = ((nextRecord cfg s).1 :: (runOps cfg (nextRecord cfg s).2 ops).1,
              (runOps cfg (nextRecord cfg s).2 ops).2) := rfl
      by_cases hd : s.doneReading
      · have hn : nextRecord cfg s = (.val none, s) := by
          unfold nextRecord; rw [if_pos hd]
        rw [hru, hn]
        dsimp only
        obtain ⟨h1, h2⟩ := ih s hg
        exact ⟨by rw [valsOf_cons_none, h1], h2⟩
      · have hn : nextRecord cfg s = (.val none, { s with doneReading := true }) := by
          unfold nextRecord; rw [if_neg hd, if_pos hg]
        rw [hru, hn]
        dsimp only
        obtain ⟨h1, h2⟩ := ih { s with doneReading := true } hg
        exact ⟨by rw [valsOf_cons_none, h1], h2⟩

/-! ### The chunk-nested fatal errors -/

/-- A chunk (with empty compression, so its data is used as-is) whose
contents start with an encoded forbidden record kind: the generator throws
the nested-record error. -/
theorem resume_chunk_forbidden (bad : McapRecord) (ds : Nat) (more tail : List Nat)
    (hforb : forbiddenInChunk bad = true) (hwfb : recEncWF bad)
    (hwfc : recEncWF (.chunk [] ds (encodeRecord bad ++ more))) :
    resume defaultCfg .records
        (encodeRecord (.chunk [] ds (encodeRecord bad ++ more)) ++ tail) =
      .errOut "record not allowed inside a chunk" tail := by
  have h0 : resume defaultCfg .records
        (encodeRecord (.chunk [] ds (encodeRecord bad ++ more)) ++ tail)
      = goRecords defaultCfg
          (encodeRecord (.chunk [] ds (encodeRecord bad ++ more)) ++ tail) := rfl
  rw [h0, goRecords_unfold, parseRecord_encode _ _ hwfc]
  dsimp only
  rw [if_neg (by decide)]
  have hce : chunkEval defaultCfg [] ds (encodeRecord bad ++ more)
      = .ok (encodeRecord bad ++ more) := rfl
  rw [hce]
  dsimp only
  unfold chunkStep
  rw [parseRecord_encode _ _ hwfb]
  dsimp only
  rw [if_pos hforb]

/-- A chunk naming a nonempty compression: with no registered handlers
(the default configuration) the generator throws the
unsupported-compression error. -/
theorem resume_chunk_unsupported (comp : List Nat) (ds : Nat) (data tail : List Nat)
    (hcomp : comp ≠ []) (hwfc : recEncWF (.chunk comp ds data)) :
    resume defaultCfg .records (encodeRecord (.chunk comp ds data) ++ tail) =
      .errOut "Unsupported compression" tail := by
  have h0 : resume defaultCfg .records (encodeRecord (.chunk comp ds data) ++ tail)
      = goRecords defaultCfg (encodeRecord (.chunk comp ds data) ++ tail) := rfl
  rw [h0, goRecords_unfold, parseRecord_encode _ _ hwfc]
  dsimp only
  rw [if_neg (by decide)]
  have hce : chunkEval defaultCfg comp ds data = .error "Unsupported compression" := by
    unfold chunkEval
    rw [if_neg hcomp]
    rfl
  rw [hce]

/-! ## Claim theorems for the decoder -/

/-- C3: For every sequence of directly-yieldable, well-formed records and
every partition of its encoded stream (leading magic, records, footer,
trailing magic) into nonempty fragments — including one-byte fragments —
feeding the fragments in order to a fresh decoder and draining it with
`nextRecord` calls after each fragment yields exactly the original record
sequence in order (each call returning a record or the need-more-bytes
signal, the model's total `drain`), ending in completion; in particular
the produced sequence is independent of the fragmentation. -/
theorem mcap_c3 (rs : List McapRecord) (fdata : List Nat)
    (hall : ∀ r ∈ rs, isYieldKind r = true ∧ recEncWF r)
    (hf : fdata.length < 2 ^ 32)
    (frags : List (List Nat)) (hne : ∀ f ∈ frags, f ≠ [])
    (hjoin : frags.flatten = encodeStream rs fdata) :
    runFrags defaultCfg frags = ⟨rs ++ [.footer fdata], .fin⟩ := by
  have hstream := drain_stream rs fdata hall hf
  have hfne : frags ≠ [] := by
    intro h
    rw [h] at hjoin
    simp [encodeStream, MCAP_MAGIC] at hjoin
  have hinv : DrainRel defaultCfg .start (([] : List Nat) ++ frags.flatten) (.finished [])
      (rs ++ [.footer fdata]) := by
    rw [List.nil_append, hjoin]
    exact hstream
  have haux := runFrags_aux frags [] (rs ++ [.footer fdata]) .start [] hne hinv
  rw [if_neg hfne] at haux
  simpa [runFrags, initFeed] using haux

/-- The whole-stream bytes for the C3 witness, split into one-byte
fragments. -/
def c3frags : List (List Nat) :=
  (encodeStream [.channelInfo [7], .message [1, 2]] [9]).map (fun x => [x])

theorem mcap_c3_witness :
    c3frags.flatten = encodeStream [.channelInfo [7], .message [1, 2]] [9] ∧
    runFrags defaultCfg c3frags =
      ⟨[.channelInfo [7], .message [1, 2], .footer [9]], .fin⟩ := by
  refine ⟨by decide, ?_⟩
  have h := mcap_c3 [.channelInfo [7], .message [1, 2]] [9]
    (by decide) (by decide) c3frags (by decide) (by decide)
  exact h

/-- C5: each of the four corruption scenarios is a fatal decode failure —
(1) malformed leading magic makes the first `nextRecord` throw `bad magic`;
(2) any nonempty trailing bytes after a valid stream's trailing magic turn
its drain into the trailing-bytes failure (the footer is no longer
returned); (3) a forbidden record kind (chunk, index data, chunk info,
footer) nested inside a chunk's contents makes `nextRecord` throw; (4) a
chunk naming an unregistered compression makes `nextRecord` throw; and
(5) once the generator has completed, no sequence of further appends and
`nextRecord` calls ever produces another record. -/
theorem mcap_c5 :
    (∀ b : List Nat, parseMagic b = .bad →
      nextRecord defaultCfg ⟨b, .start, false, false⟩ =
        (.thrown "bad magic", ⟨b, .start, true, false⟩)) ∧
    (∀ (rs : List McapRecord) (fdata e : List Nat),
      (∀ r ∈ rs, isYieldKind r = true ∧ recEncWF r) →
      fdata.length < 2 ^ 32 → e ≠ [] →
      DrainRel defaultCfg .start (encodeStream rs fdata ++ e)
        (.failed "bytes remaining after MCAP footer and trailing magic" e) rs) ∧
    (∀ (bad : McapRecord) (ds : Nat) (more tail : List Nat),
      forbiddenInChunk bad = true → recEncWF bad →
      recEncWF (.chunk [] ds (encodeRecord bad ++ more)) →
      nextRecord defaultCfg
          ⟨encodeRecord (.chunk [] ds (encodeRecord bad ++ more)) ++ tail,
            .records, false, false⟩ =
        (.thrown "record not allowed inside a chunk", ⟨tail, .records, true, false⟩)) ∧
    (∀ (comp : List Nat) (ds : Nat) (data tail : List Nat), comp ≠ [] →
      recEncWF (.chunk comp ds data) →
      nextRecord defaultCfg
          ⟨encodeRecord (.chunk comp ds data) ++ tail, .records, false, false⟩ =
        (.thrown "Unsupported compression", ⟨tail, .records, true, false⟩)) ∧
    (∀ (s : McapReaderState) (ops : List ReaderOp), s.genDone = true →
      valsOf (runOps defaultCfg s ops).1 = []) := by
  refine ⟨?_, ?_, ?_, ?_, ?_⟩
  · intro b hb
    have hres : resume defaultCfg .start b = .errOut "bad magic" b := by
      simp only [resume]
      rw [hb]
    unfold nextRecord
    rw [if_neg (by simp), if_neg (by simp)]
    rw [hres]
  · intro rs fdata e hall hf he
    have hfin := drain_stream rs fdata hall hf
    obtain ⟨hb2, rs2, rlast, hsplit, hfail⟩ := DrainRel_append_finished hfin
    obtain ⟨hrsEq, -⟩ := List.append_inj' hsplit rfl
    have h5 := hfail e he
    rw [← hrsEq] at h5
    exact h5
  · intro bad ds more tail hforb hwfb hwfc
    have hres := resume_chunk_forbidden bad ds more tail hforb hwfb hwfc
    unfold nextRecord
    rw [if_neg (by simp), if_neg (by simp)]
    rw [hres]
  · intro comp ds data tail hcomp hwfc
    have hres := resume_chunk_unsupported comp ds data tail hcomp hwfc
    unfold nextRecord
    rw [if_neg (by simp), if_neg (by simp)]
    rw [hres]
  · intro s ops hg
    exact (runOps_genDone defaultCfg ops s hg).1

theorem mcap_c5_witness :
    nextRecord defaultCfg ⟨[1, 2, 3, 4, 5, 6, 7, 8], .start, false, false⟩
        = (.thrown "bad magic", ⟨[1, 2, 3, 4, 5, 6, 7, 8], .start, true, false⟩) ∧
    DrainRel defaultCfg .start (encodeStream [] [] ++ [0])
        (.failed "bytes remaining after MCAP footer and trailing magic" [0]) [] ∧
    nextRecord defaultCfg
        ⟨encodeRecord (.chunk [] 0 (encodeRecord (.chunkInfo []) ++ [])) ++ [],
          .records, false, false⟩
        = (.thrown "record not allowed inside a chunk", ⟨[], .records, true, false⟩) ∧
    nextRecord defaultCfg ⟨encodeRecord (.chunk [1] 0 []) ++ [], .records, false, false⟩
        = (.thrown "Unsupported compression", ⟨[], .records, true, false⟩) ∧
    valsOf (runOps defaultCfg ⟨[], .records, true, false⟩ [.next, .app [1], .next]).1 = [] := by
  obtain ⟨h1, h2, h3, h4, h5⟩ := mcap_c5
  exact ⟨h1 _ (by decide), h2 [] [] [0] (by simp) (by decide) (by decide),
    h3 (.chunkInfo []) 0 [] [] (by decide) (by decide) (by decide),
    h4 [1] 0 [] [] (by decide) (by decide),
    h5 _ _ rfl⟩

/-- The C7 example stream: magic, a channel-info record, a message record,
a footer record, trailing magic. -/
def c7bytes : List Nat := encodeStream [.channelInfo [1], .message [2]] []

/-- A fresh reader holding the whole C7 example stream. -/
def c7reader : McapReaderState := ⟨c7bytes, .start, false, false⟩

/-- C7 (counterexample to the spec's example): the records produced by
repeated `nextRecord` calls on the example stream are not exactly
`[ChannelInfo, Message]` — the completing call also returns the footer
record (`nextRecord` returns the generator's return value). -/
theorem mcap_c7_cex :
    valsOf (callTrace defaultCfg c7reader 5).1 ≠
      [.channelInfo [1], .message [2]] := by decide

/-- C7 (amended): on the example stream the five first `nextRecord` calls
return the channel-info record, the message record, the footer record
(the completing call, with no trailing-bytes error thrown), and then
`undefined` forever; `done()` is false before the footer is returned and
true after. -/
theorem mcap_c7 :
    (callTrace defaultCfg c7reader 5).1 =
      [.val (some (.channelInfo [1])), .val (some (.message [2])),
        .val (some (.footer [])), .val none, .val none] ∧
    readerDone (callTrace defaultCfg c7reader 2).2 = false ∧
    readerDone (callTrace defaultCfg c7reader 3).2 = true := by decide

/-! ## The Player engines

Time is modelled as integer nanoseconds: the source's `Time = {sec, nsec}`
with `add` / `compare` / `clampTime` from the rostime library is an
integer count of nanoseconds split over two fields, and the only
operations used here are addition and the total order, which carry over
verbatim.  Wall-clock readings (`Date.now()`, `performance.now()`) and
the messages a provider read returns are oracle inputs to the step
functions, and the float smoothing of the tick's range (`rangeMillis`)
is abstracted into the oracle input `rangeNs`, the nanosecond length of
the requested read range.  Listener emission is modelled by returning the
emitted `PlayerStateE` alongside the new engine state; resource releases
(`provider.close()` etc.) are modelled as an emitted effect list. -/

/-- `clampTime(time, start, end)` from the time utilities: below the range
gives `start`, above gives `end`. -/
def clampTime (t lo hi : Int) : Int :=
  if t < lo then lo else if hi < t then hi else t

/-- A provider message (the provider's `MessageEvent`, which carries
`sizeInBytes`); payloads are opaque. -/
structure PMsg where
  topic : String
  receiveTime : Int
  message : Nat
  sizeInBytes : Nat
deriving DecidableEq, Repr

/-- A message as the engine delivers it to the listener.  `sizeInBytes` is
an `Option` so that the object literal the source builds without that
field is representable (`none` = the field is absent). -/
structure OutMsg where
  topic : String
  receiveTime : Int
  message : Nat
  sizeInBytes : Option Nat
deriving DecidableEq, Repr

/-- A provider topic (name and datatype), as consulted by the message
filter. -/
structure TopicT where
  name : String
  datatype : String
deriving DecidableEq, Repr

/-- The `filterMessages` closure inside `RandomAccessPlayer._getMessages`:
drop a message whose topic is not subscribed, has no provider topic entry,
or whose topic entry has an empty datatype; otherwise emit
`{topic, receiveTime, message}` — the source's object literal carries no
`sizeInBytes` field, hence `none`.  (The problem-store bookkeeping on the
dropped branches has no bearing on the produced messages and is not
modelled.) -/
def filterMessages (providerTopics : List TopicT) (msgs : List PMsg)
    (topics : List String) : List OutMsg :=
  msgs.filterMap fun message =>
    if message.topic ∈ topics then
      match providerTopics.find? (fun t => t.name == message.topic) with
      | none => none
      | some topic =>
        if topic.datatype = "" then none
        else some ⟨message.topic, message.receiveTime, message.message, none⟩
    else none

/-- The `RandomAccessPlayer`'s mutable fields used by the claims (with
`_end` as `endTime`, its name inside the emitted active data). -/
structure RAPState where
  isPlaying : Bool
  speed : Int
  start : Int
  endTime : Int
  nextReadStartTime : Int
  lastTickMillis : Option Int
  lastRangeMillis : Option Int
  lastSeekStartTime : Int
  lastSeekEmitTime : Int
  cancelSeekBackfill : Bool
  subscribedTopics : List String
  providerTopics : List TopicT
  messages : List OutMsg
  currentTime : Option Int
  initializing : Bool
  initialized : Bool
  reconnecting : Bool
  hasError : Bool
  closed : Bool
deriving DecidableEq, Repr

/-- The presence values the engine emits. -/
inductive PresenceE
  | error
  | reconnecting
  | initializing
  | present
deriving DecidableEq, Repr

/-- The fields of the emitted `activeData` the claims are about. -/
structure ActiveDataE where
  messages : List OutMsg
  currentTime : Int
  startTime : Int
  endTime : Int
  isPlaying : Bool
  speed : Int
  lastSeekTime : Int
deriving DecidableEq, Repr

/-- The emitted player state (presence and optional active data). -/
structure PlayerStateE where
  presence : PresenceE
  activeData : Option ActiveDataE
deriving DecidableEq, Repr

/-- `RandomAccessPlayer._emitState`: on error, emit the error presence
with no active data and change nothing; otherwise move the queued
messages out (setting `cancelSeekBackfill` when any are emitted, so a
pending backfill cannot travel back in time), compute `currentTime` as
the end of the last read window (`nextReadStartTime` minus one
nanosecond, when positive) clamped to `[start, end]`, and emit.  The
source's reference-stability check on `_currentTime` reassigns only on a
value change and is value-transparent, so the model always stores the
clamped value. -/
def emitState (st : RAPState) : RAPState × PlayerStateE :=
  if st.hasError = true then (st, ⟨.error, none⟩)
  else
    let messages := st.messages
    let st1 : RAPState := { st with
      messages := [],
      cancelSeekBackfill := if 0 < messages.length then true else st.cancelSeekBackfill }
    let lastEnd : Int :=
      if 0 < st.nextReadStartTime then st.nextReadStartTime - 1 else st.nextReadStartTime
    let clampedLastEnd := clampTime lastEnd st.start st.endTime
    let st2 : RAPState := { st1 with currentTime := some clampedLastEnd }
    (st2,
      ⟨if st.reconnecting = true then .reconnecting
        else if st.initializing = true then .initializing else .present,
        if st.initializing = true then none
        else some ⟨messages, clampedLastEnd, st.start, st.endTime,
          st.isPlaying, st.speed, st.lastSeekEmitTime⟩⟩)

/-- The pre-read phase of `RandomAccessPlayer._tick`: the
initializing/not-playing/error guard, recording the tick instant and the
(smoothed) read range, the past-the-end guard, then capturing the seek
token `_lastSeekStartTime` and computing the clamped read window.
Returns `none` when the tick returns early, otherwise the updated state,
the captured token, and the window. -/
def tickRead (st : RAPState) (tickMillis rangeNs : Int) :
    Option (RAPState × Int × Int × Int) :=
  if st.initializing = true ∨ st.isPlaying = false ∨ st.hasError = true then none
  else
    let st1 : RAPState := { st with
      lastTickMillis := some tickMillis, lastRangeMillis := some rangeNs }
    if st1.endTime < st1.nextReadStartTime then none
    else
      some (st1, st1.lastSeekStartTime,
        clampTime st1.nextReadStartTime st1.start st1.endTime,
        clampTime (st1.nextReadStartTime + rangeNs) st1.start st1.endTime)

/-- The completion phase of `RandomAccessPlayer._tick`, after the provider
read returned `msgs`, in the source's order: (1) if the current seek token
differs from the captured one, return with nothing changed; (2) advance
`nextReadStartTime` to one nanosecond past the read end; (3) if no longer
playing, return — the messages are discarded but the cursor stays
advanced; (4) otherwise queue the messages (the caller then emits). -/
def tickFinish (st : RAPState) (capturedSeekTime readEnd : Int)
    (msgs : List OutMsg) : RAPState :=
  if st.lastSeekStartTime ≠ capturedSeekTime then st
  else
    let st1 : RAPState := { st with nextReadStartTime := readEnd + 1 }
    if st.isPlaying = false then st1
    else { st1 with messages := st1.messages ++ msgs }

/-- One whole uninterrupted tick (no interleaved operation between the
read's start and completion): pre-read phase, completion phase, and the
final `_emitState()` when messages were queued. -/
def tickStep (st : RAPState) (tickMillis rangeNs : Int) (msgs : List OutMsg) :
    RAPState × Option PlayerStateE :=
  match tickRead st tickMillis rangeNs with
  | none => (st, none)
  | some (st1, seekTime, _, readEnd) =>
    let st2 := tickFinish st1 seekTime readEnd msgs
    if st2.isPlaying = true then ((emitState st2).1, some (emitState st2).2)
    else (st2, none)

/-- `RandomAccessPlayer._setNextReadStartTime`: clamp and store the read
cursor (the metrics call has no state effect here). -/
def setNextReadStartTime (st : RAPState) (t : Int) : RAPState :=
  { st with nextReadStartTime := clampTime t st.start st.endTime }

/-- `RandomAccessPlayer.seekPlayback` followed by the synchronous prefix
of `_seekPlaybackInternal`: nothing before initialization; otherwise set
the clamped cursor, then — if playing — record the seek emit instant and
let the read loop take over, else reset the backfill-cancel flag and drop
the queued messages before the async backfill read.  Note that no branch
writes `_lastSeekStartTime`: the source initializes it once and never
reassigns it. -/
def seekPlayback (st : RAPState) (t now : Int) : RAPState :=
  if st.initialized = false then st
  else
    let st1 := setNextReadStartTime st t
    if st1.isPlaying = true then { st1 with lastSeekEmitTime := now }
    else { st1 with cancelSeekBackfill := false, messages := [] }

/-- `RandomAccessPlayer.startPlayback` (the emission and read loop are
driven separately). -/
def startPlayback (st : RAPState) : RAPState :=
  if st.isPlaying = true then st else { st with isPlaying := true }

/-- `RandomAccessPlayer.pausePlayback`: clear the tick clock so unpausing
does not read a huge range, stop playing. -/
def pausePlayback (st : RAPState) : RAPState :=
  if st.isPlaying = false then st
  else { st with lastTickMillis := none, isPlaying := false }

/-- `RandomAccessPlayer.setPlaybackSpeed`: drop the range smoothing and
set the speed. -/
def setPlaybackSpeed (st : RAPState) (speed : Int) : RAPState :=
  { st with lastRangeMillis := none, speed := speed }

/-- `RandomAccessPlayer.setSubscriptions`. -/
def rapSetSubscriptions (st : RAPState) (topics : List String) : RAPState :=
  { st with subscribedTopics := topics }

/-- `RandomAccessPlayer.requestBackfill`: only when paused, out of
initialization, and a current time exists; then seek to the current
time. -/
def requestBackfill (st : RAPState) (now : Int) : RAPState :=
  if st.isPlaying = true ∨ st.initializing = true then st
  else
    match st.currentTime with
    | none => st
    | some c => seekPlayback st c now

/-- An externally visible resource release performed by `close()`. -/
inductive REffect
  | providerClose
  | metricsClose
  | rosClientClose
  | clearEmitTimer
deriving DecidableEq, Repr

/-- `RandomAccessPlayer.close`: stop playing, mark closed, release the
provider (unless still initializing or errored) and the metrics
collector.  The effect list is what this call releases. -/
def rapClose (st : RAPState) : RAPState × List REffect :=
  ({ st with isPlaying := false, closed := true },
    (if st.initializing = false ∧ st.hasError = false then [REffect.providerClose] else [])
      ++ [REffect.metricsClose])

/-- The `RosbridgePlayer`'s mutable fields used by the claims.
`rosClientConnected` models `_rosClient != undefined`. -/
structure RBState where
  closed : Bool
  rosClientConnected : Bool
  emitTimerSet : Bool
  hasReceivedMessage : Bool
  requestedSubscriptions : List String
  publishers : List String
deriving DecidableEq, Repr

/-- `RosbridgePlayer.close`: mark closed, close the ros client if present
(the field is NOT cleared, so a later close closes it again), clear the
emit timer if set (this one IS cleared), close the metrics collector,
reset the first-message flag. -/
def rbClose (st : RBState) : RBState × List REffect :=
  ({ st with closed := true, emitTimerSet := false, hasReceivedMessage := false },
    (if st.rosClientConnected = true then [REffect.rosClientClose] else [])
      ++ (if st.emitTimerSet = true then [REffect.clearEmitTimer] else [])
      ++ [REffect.metricsClose])

/-- `RosbridgePlayer.setPublishers` followed by `_setupPublishers`: throw
away the old publishers; registration happens only with a connected ros
client. -/
def rbSetPublishers (st : RBState) (pubs : List String) : RBState :=
  { st with publishers := if st.rosClientConnected = true then pubs else [] }

/-- An operation of the public `Player` contract. -/
inductive PlayerOp
  | setListener
  | closeOp
  | setSubscriptions (topics : List String)
  | setPublishers (pubs : List String)
  | setPlaybackSpeed (speed : Int)
  | startPlayback
  | pausePlayback
  | seekPlayback (t : Int)
  | setParameter (key : String)
  | publish (topic : String)
  | requestBackfill
deriving Repr

/-- Whether a call returned normally. -/
def opOk {α : Type} : Except String α → Bool
  | .ok _ => true
  | .error _ => false

/-- Dispatch one public operation on the `RandomAccessPlayer`: an
`.error` result is an exception thrown synchronously past the engine
boundary, with the source's message. -/
def rapApply (st : RAPState) (op : PlayerOp) (now : Int) : Except String RAPState :=
  match op with
  | .setListener => .ok st
  | .closeOp => .ok (rapClose st).1
  | .setSubscriptions topics => .ok (rapSetSubscriptions st topics)
  | .setPublishers _ => .ok st
  | .setPlaybackSpeed sp => .ok (setPlaybackSpeed st sp)
  | .startPlayback => .ok (startPlayback st)
  | .pausePlayback => .ok (pausePlayback st)
  | .seekPlayback t => .ok (seekPlayback st t now)
  | .setParameter _ => .error "Parameter editing is not supported by this data source"
  | .publish _ => .error "Publishing is not supported by this data source"
  | .requestBackfill => .ok (requestBackfill st now)

/-- Dispatch one public operation on the `RosbridgePlayer`:
`setParameter` always throws; `publish` throws on an unregistered topic;
playback controls are no-ops. -/
def rbApply (st : RBState) (op : PlayerOp) : Except String RBState :=
  match op with
  | .setListener => .ok st
  | .closeOp => .ok (rbClose st).1
  | .setSubscriptions topics => .ok { st with requestedSubscriptions := topics }
  | .setPublishers pubs => .ok (rbSetPublishers st pubs)
  | .setPlaybackSpeed _ => .ok st
  | .startPlayback => .ok st
  | .pausePlayback => .ok st
  | .seekPlayback _ => .ok st
  | .setParameter _ => .error "Parameter editing is not supported by the Rosbridge connection"
  | .publish topic =>
    if topic ∈ st.publishers then .ok st
    else .error ("Tried to publish on a topic that is not registered as a publisher: " ++ topic)
  | .requestBackfill => .ok st

/-! ### Helper lemmas for the engine step functions -/

theorem clampTime_bounds (t lo hi : Int) (h : lo ≤ hi) :
    lo ≤ clampTime t lo hi ∧ clampTime t lo hi ≤ hi := by
  unfold clampTime
  split_ifs <;> omega

theorem clampTime_eq_self {t lo hi : Int} (h1 : lo ≤ t) (h2 : t ≤ hi) :
    clampTime t lo hi = t := by
  unfold clampTime
  split_ifs <;> omega

theorem le_clampTime {c t lo hi : Int} (hlo : lo ≤ c) (hhi : c ≤ hi) (hct : c ≤ t) :
    c ≤ clampTime t lo hi := by
  unfold clampTime
  split_ifs <;> omega

/-- `tickFinish` when no seek intervened and the engine is still playing:
advance the cursor and queue the messages. -/
theorem tickFinish_noseek {st : RAPState} (sk re : Int) (m : List OutMsg)
    (hsk : st.lastSeekStartTime = sk) (hp : st.isPlaying = true) :
    tickFinish st sk re m
      = { st with nextReadStartTime := re + 1, messages := st.messages ++ m } := by
  unfold tickFinish
  rw [if_neg (by simp [hsk]), if_neg (by simp [hp])]

/-- The engine state in the middle of a successful tick, after the cursor
advance and message queueing of `tickFinish` (with the tick bookkeeping of
`tickRead`). -/
def tickMid (st : RAPState) (t r : Int) (m : List OutMsg) : RAPState :=
  { st with
    lastTickMillis := some t,
    lastRangeMillis := some r,
    nextReadStartTime := clampTime (st.nextReadStartTime + r) st.start st.endTime + 1,
    messages := st.messages ++ m }

/-- `emitState` on a healthy, initialized engine, written out. -/
theorem emitState_active {st : RAPState} (he : st.hasError = false)
    (hi : st.initializing = false) :
    emitState st = ({ st with
        messages := [],
        cancelSeekBackfill := if 0 < st.messages.length then true else st.cancelSeekBackfill,
        currentTime := some (clampTime
          (if 0 < st.nextReadStartTime then st.nextReadStartTime - 1 else st.nextReadStartTime)
          st.start st.endTime) },
      ⟨if st.reconnecting = true then .reconnecting else .present,
        some ⟨st.messages,
          clampTime
            (if 0 < st.nextReadStartTime then st.nextReadStartTime - 1 else st.nextReadStartTime)
            st.start st.endTime,
          st.start, st.endTime, st.isPlaying, st.speed, st.lastSeekEmitTime⟩⟩) := by
  unfold emitState
  rw [if_neg (show ¬st.hasError = true by simp [he])]
  dsimp only
  rw [if_neg (show ¬st.initializing = true by simp [hi]),
    if_neg (show ¬st.initializing = true by simp [hi])]

/-- A successful (emitting) uninterrupted tick, characterized: it requires
a healthy playing engine with the cursor within the range, emits the
queued messages plus the read's with `currentTime` the clamped read end,
and leaves the cursor one past the read end. -/
theorem tickStep_emit {st : RAPState} {t r : Int} {m : List OutMsg} {p : PlayerStateE}
    (hs0 : 0 ≤ st.start) (hse : st.start ≤ st.endTime)
    (h : (tickStep st t r m).2 = some p) :
    st.initializing = false ∧ st.isPlaying = true ∧ st.hasError = false ∧
    st.nextReadStartTime ≤ st.endTime ∧
    p.activeData = some ⟨st.messages ++ m,
      clampTime (st.nextReadStartTime + r) st.start st.endTime,
      st.start, st.endTime, true, st.speed, st.lastSeekEmitTime⟩ ∧
    (tickStep st t r m).1 = { st with
      lastTickMillis := some t,
      lastRangeMillis := some r,
      nextReadStartTime := clampTime (st.nextReadStartTime + r) st.start st.endTime + 1,
      messages := [],
      cancelSeekBackfill := if 0 < (st.messages ++ m).length then true else st.cancelSeekBackfill,
      currentTime := some (clampTime (st.nextReadStartTime + r) st.start st.endTime) } := by
  by_cases hg : st.initializing = true ∨ st.isPlaying = false ∨ st.hasError = true
  · exfalso
    have hz : tickStep st t r m = (st, none) := by
      unfold tickStep tickRead
      rw [if_pos hg]
    rw [hz] at h
    cases h
  · have hgKeep := hg
    simp only [not_or, Bool.not_eq_true, Bool.not_eq_false] at hg
    obtain ⟨hi, hp, he⟩ := hg
    by_cases hg2 : st.endTime < st.nextReadStartTime
    · exfalso
      have hz : tickStep st t r m = (st, none) := by
        unfold tickStep tickRead
        rw [if_neg hgKeep]
        dsimp only
        rw [if_pos hg2]
      rw [hz] at h
      cases h
    · have htot : tickStep st t r m
          = ((emitState (tickMid st t r m)).1, some (emitState (tickMid st t r m)).2) := by
        unfold tickStep tickRead tickMid
        rw [if_neg hgKeep]
        dsimp only
        rw [if_neg hg2]
        dsimp only
        rw [tickFinish_noseek st.lastSeekStartTime
          (clampTime (st.nextReadStartTime + r) st.start st.endTime) m
          (show ({ st with lastTickMillis := some t, lastRangeMillis := some r } : RAPState).lastSeekStartTime = st.lastSeekStartTime from rfl) hp]
        dsimp only
        rw [if_pos (show ({ st with lastTickMillis := some t, lastRangeMillis := some r } : RAPState).isPlaying = true from hp)]
      have hb := clampTime_bounds (st.nextReadStartTime + r) st.start st.endTime hse
      have h01 : 0 < clampTime (st.nextReadStartTime + r) st.start st.endTime + 1 := by omega
      have hm1 : clampTime (st.nextReadStartTime + r) st.start st.endTime + 1 - 1
          = clampTime (st.nextReadStartTime + r) st.start st.endTime := by omega
      have hcc := clampTime_eq_self hb.1 hb.2
      rw [emitState_active (show (tickMid st t r m).hasError = false from he)
        (show (tickMid st t r m).initializing = false from hi)] at htot
      unfold tickMid at htot
      dsimp only at htot
      rw [if_pos h01, hm1, hcc, hp] at htot
      rw [htot] at h
      dsimp only at h
      obtain hpY := (Option.some.inj h).symm
      refine ⟨hi, hp, he, not_lt.mp hg2, ?_, ?_⟩
      · rw [hpY]
      · rw [htot]
        dsimp only
        rw [hp]

/-- A healthy, initialized, playing engine used as concrete input: range
`[0, 10 s]` in nanoseconds, read cursor at 5 s, seek token `1000`. -/
def rapReady : RAPState :=
  { isPlaying := true,
    speed := 1,
    start := 0,
    endTime := 10000000000,
    nextReadStartTime := 5000000000,
    lastTickMillis := none,
    lastRangeMillis := none,
    lastSeekStartTime := 1000,
    lastSeekEmitTime := 1000,
    cancelSeekBackfill := false,
    subscribedTopics := [],
    providerTopics := [],
    messages := [],
    currentTime := some 4999999999,
    initializing := false,
    initialized := true,
    reconnecting := false,
    hasError := false,
    closed := false }

/-- A connected rosbridge engine used as concrete input. -/
def rbReady : RBState :=
  { closed := false,
    rosClientConnected := true,
    emitTimerSet := true,
    hasReceivedMessage := true,
    requestedSubscriptions := [],
    publishers := [] }

/-- A concrete read result message. -/
def c1msg : OutMsg := ⟨"topicA", 5000000001, 0, none⟩

/-! ## Claim theorems for the engines -/

/-- C1 (refuting; code bug): the seek-supersession check of `_tick` never
fires, because no operation ever writes the seek-generation token
`_lastSeekStartTime` — in particular `seekPlayback` leaves it unchanged
(first conjunct, for every state).  Concretely: from `rapReady`, a tick's
read starts capturing token `1000` and read window ending at 5.1 s; a
`seekPlayback` to 1 s lands mid-read; yet the completing read still
passes the token comparison, keeps its messages, and advances the cursor
to one past its own read end — overwriting the seek target instead of
being discarded. -/
theorem player_c1 :
    (∀ (st : RAPState) (t now : Int),
      (seekPlayback st t now).lastSeekStartTime = st.lastSeekStartTime) ∧
    tickRead rapReady 100 100000000 =
      some ({ rapReady with lastTickMillis := some 100, lastRangeMillis := some 100000000 },
        1000, 5000000000, 5100000000) ∧
    (tickFinish (seekPlayback { rapReady with
        lastTickMillis := some 100, lastRangeMillis := some 100000000 } 1000000000 2000)
      1000 5100000000 [c1msg]).messages = [c1msg] ∧
    (tickFinish (seekPlayback { rapReady with
        lastTickMillis := some 100, lastRangeMillis := some 100000000 } 1000000000 2000)
      1000 5100000000 [c1msg]).nextReadStartTime = 5100000001 := by
  refine ⟨?_, by decide, by decide, by decide⟩
  intro st t now
  simp only [seekPlayback, setNextReadStartTime]
  split_ifs <;> rfl

/-- C2 (counterexample): when the engine is paused at read completion,
the cursor IS advanced — from `rapReady` paused, a completing read with
end 5.1 s moves `nextReadStartTime` from 5 s to one past 5.1 s (the
advance happens before the playing check in the source), refuting "the
read cursor is not advanced". -/
theorem player_c2_cex :
    (tickFinish { rapReady with isPlaying := false } 1000 5100000000 [c1msg]).nextReadStartTime
        = 5100000001 ∧
    { rapReady with isPlaying := false }.nextReadStartTime = 5000000000 ∧
    (tickFinish { rapReady with isPlaying := false } 1000 5100000000 [c1msg]).messages
        = [] := by
  refine ⟨by decide, by decide, by decide⟩

/-- C2 (amended): if the engine is not playing when a tick's read
completes (and no seek token change intervened), the read's messages are
discarded but the cursor is advanced to one nanosecond past the read
end. -/
theorem player_c2 (st : RAPState) (sk readEnd : Int) (msgs : List OutMsg)
    (hsk : st.lastSeekStartTime = sk) (hp : st.isPlaying = false) :
    tickFinish st sk readEnd msgs = { st with nextReadStartTime := readEnd + 1 } := by
  unfold tickFinish
  rw [if_neg (by simp [hsk]), if_pos hp]

theorem player_c2_witness :
    { rapReady with isPlaying := false }.lastSeekStartTime = 1000 ∧
    { rapReady with isPlaying := false }.isPlaying = false ∧
    tickFinish { rapReady with isPlaying := false } 1000 5100000000 [c1msg]
      = { rapReady with isPlaying := false, nextReadStartTime := 5100000000 + 1 } :=
  ⟨rfl, rfl,
    player_c2 { rapReady with isPlaying := false } 1000 5100000000 [c1msg] rfl rfl⟩

/-- C4 (counterexample): `setParameter` throws on both engines, and
`publish` throws on the random-access engine and on the rosbridge engine
for an unregistered topic, refuting "no operation in the public contract
ever raises past its boundary". -/
theorem player_c4_cex :
    opOk (rapApply rapReady (.setParameter "k") 0) = false ∧
    opOk (rbApply rbReady (.setParameter "k")) = false ∧
    opOk (rapApply rapReady (.publish "t") 0) = false ∧
    opOk (rbApply rbReady (.publish "t")) = false := by
  refine ⟨rfl, rfl, rfl, ?_⟩
  decide

/-- C4 (amended): every public operation returns normally on every state
of either engine, EXCEPT `setParameter` (always throws, both engines)
and `publish` (always throws on the random-access engine; throws on the
rosbridge engine exactly when the topic has no registered publisher). -/
theorem player_c4 (st : RAPState) (rb : RBState) (op : PlayerOp) (now : Int) :
    opOk (rapApply st op now) =
      (match op with
        | .setParameter _ => false
        | .publish _ => false
        | _ => true) ∧
    opOk (rbApply rb op) =
      (match op with
        | .setParameter _ => false
        | .publish topic => decide (topic ∈ rb.publishers)
        | _ => true) := by
  cases op with
  | setListener => exact ⟨rfl, rfl⟩
  | closeOp => exact ⟨rfl, rfl⟩
  | setSubscriptions topics => exact ⟨rfl, rfl⟩
  | setPublishers pubs => exact ⟨rfl, rfl⟩
  | setPlaybackSpeed sp => exact ⟨rfl, rfl⟩
  | startPlayback => exact ⟨rfl, rfl⟩
  | pausePlayback => exact ⟨rfl, rfl⟩
  | seekPlayback t => exact ⟨rfl, rfl⟩
  | setParameter k => exact ⟨rfl, rfl⟩
  | publish topic =>
    refine ⟨rfl, ?_⟩
    by_cases h : topic ∈ rb.publishers
    · simp [rbApply, opOk, h]
    · simp [rbApply, opOk, h]
  | requestBackfill => exact ⟨rfl, rfl⟩

/-- C6 (counterexample): a second `close()` releases resources again — on
the random-access engine it closes the provider and the metrics collector
a second time, and on the rosbridge engine it closes the still-referenced
ros client and the metrics collector a second time — refuting "does not
release any resource a second time". -/
theorem player_c6_cex :
    (rapClose (rapClose rapReady).1).2 = [.providerClose, .metricsClose] ∧
    (rbClose (rbClose rbReady).1).2 = [.rosClientClose, .metricsClose] := by
  refine ⟨by decide, by decide⟩

/-- C6 (amended): a second `close()` throws no exception and leaves the
observable state unchanged (state idempotence holds on both engines), but
it is NOT a no-op on resources: the random-access engine re-issues
exactly the same release effects, and both engines close the metrics
collector again. -/
theorem player_c6 (st : RAPState) (rb : RBState) :
    (rapClose (rapClose st).1).1 = (rapClose st).1 ∧
    (rbClose (rbClose rb).1).1 = (rbClose rb).1 ∧
    (rapClose (rapClose st).1).2 = (rapClose st).2 ∧
    REffect.metricsClose ∈ (rapClose (rapClose st).1).2 ∧
    REffect.metricsClose ∈ (rbClose (rbClose rb).1).2 := by
  refine ⟨rfl, rfl, rfl, ?_, ?_⟩ <;> simp [rapClose, rbClose]

/-- C8 (refuting; code bug): every message the random-access engine's
read path produces for the listener lacks the `sizeInBytes` field (the
source's `filterMessages` builds `{topic, receiveTime, message}` only),
and the second conjunct shows a concrete provider message with
`sizeInBytes = 17` passing the filter with the field absent. -/
theorem player_c8 :
    (∀ (pts : List TopicT) (msgs : List PMsg) (topics : List String),
      ∀ m ∈ filterMessages pts msgs topics, m.sizeInBytes = none) ∧
    filterMessages [⟨"t", "d"⟩] [⟨"t", 5, 42, 17⟩] ["t"]
      = [⟨"t", 5, 42, none⟩] := by
  constructor
  · intro pts msgs topics m hm
    unfold filterMessages at hm
    simp only [List.mem_filterMap] at hm
    obtain ⟨a, -, ha⟩ := hm
    by_cases h1 : a.topic ∈ topics
    · rw [if_pos h1] at ha
      rcases hf : pts.find? (fun x => x.name == a.topic) with _ | topic
      · rw [hf] at ha
        cases ha
      · rw [hf] at ha
        dsimp only at ha
        by_cases h2 : topic.datatype = ""
        · rw [if_pos h2] at ha
          cases ha
        · rw [if_neg h2] at ha
          obtain hEq := Option.some.inj ha
          rw [← hEq]
    · rw [if_neg h1] at ha
      cases ha
  · decide

theorem player_c8_witness :
    (⟨"t", 5, 42, none⟩ : OutMsg) ∈ filterMessages [⟨"t", "d"⟩] [⟨"t", 5, 42, 17⟩] ["t"] ∧
    (⟨"t", 5, 42, none⟩ : OutMsg).sizeInBytes = none := by
  refine ⟨by decide, ?_⟩
  exact player_c8.1 [⟨"t", "d"⟩] [⟨"t", 5, 42, 17⟩] ["t"] ⟨"t", 5, 42, none⟩ (by decide)

/-- C9: whenever an emitted state carries active data (and the provider
range is well-formed, `start ≤ end`), its `currentTime` lies within
`[startTime, endTime]` — it is the end of the last read window minus one
nanosecond, clamped to the range. -/
theorem player_c9 (st : RAPState) (hse : st.start ≤ st.endTime)
    (d : ActiveDataE) (hd : (emitState st).2.activeData = some d) :
    d.startTime ≤ d.currentTime ∧ d.currentTime ≤ d.endTime ∧
    d.startTime = st.start ∧ d.endTime = st.endTime := by
  by_cases he : st.hasError = true
  · exfalso
    unfold emitState at hd
    rw [if_pos he] at hd
    cases hd
  · have he2 : st.hasError = false := by
      revert he
      cases st.hasError <;> simp
    by_cases hi : st.initializing = true
    · exfalso
      unfold emitState at hd
      rw [if_neg he] at hd
      dsimp only at hd
      rw [if_pos hi] at hd
      cases hd
    · have hi2 : st.initializing = false := by
        revert hi
        cases st.initializing <;> simp
      rw [emitState_active he2 hi2] at hd
      dsimp only at hd
      obtain hEq := Option.some.inj hd
      subst hEq
      have hb := clampTime_bounds
        (if 0 < st.nextReadStartTime then st.nextReadStartTime - 1 else st.nextReadStartTime)
        st.start st.endTime hse
      exact ⟨hb.1, hb.2, rfl, rfl⟩

theorem player_c9_witness :
    rapReady.start ≤ rapReady.endTime ∧
    (emitState rapReady).2.activeData
      = some ⟨[], 4999999999, 0, 10000000000, true, 1, 1000⟩ ∧
    (⟨[], 4999999999, 0, 10000000000, true, 1, 1000⟩ : ActiveDataE).startTime
      ≤ (⟨[], 4999999999, 0, 10000000000, true, 1, 1000⟩ : ActiveDataE).currentTime ∧
    (⟨[], 4999999999, 0, 10000000000, true, 1, 1000⟩ : ActiveDataE).currentTime
      ≤ (⟨[], 4999999999, 0, 10000000000, true, 1, 1000⟩ : ActiveDataE).endTime := by
  have h := player_c9 rapReady (by decide)
    ⟨[], 4999999999, 0, 10000000000, true, 1, 1000⟩ (by decide)
  exact ⟨by decide, by decide, h.1, h.2.1⟩

/-- C10: across two consecutive uninterrupted emitting ticks of a playing
engine (nonnegative range lengths, well-formed provider range starting at
a nonnegative time), the emitted `currentTime` is non-decreasing and
never exceeds the end time. -/
theorem player_c10 (st : RAPState) (t1 r1 t2 r2 : Int) (m1 m2 : List OutMsg)
    (hs0 : 0 ≤ st.start) (hse : st.start ≤ st.endTime) (hr2 : 0 ≤ r2)
    (p1 p2 : PlayerStateE) (d1 d2 : ActiveDataE)
    (h1 : (tickStep st t1 r1 m1).2 = some p1) (hd1 : p1.activeData = some d1)
    (h2 : (tickStep (tickStep st t1 r1 m1).1 t2 r2 m2).2 = some p2)
    (hd2 : p2.activeData = some d2) :
    d1.currentTime ≤ d2.currentTime ∧ d1.currentTime ≤ st.endTime ∧
    d2.currentTime ≤ st.endTime := by
  obtain ⟨hi1, hp1, he1, hn1, hact1, hst1⟩ := tickStep_emit hs0 hse h1
  obtain hd1e := Option.some.inj (hact1.symm.trans hd1)
  have hb1 := clampTime_bounds (st.nextReadStartTime + r1) st.start st.endTime hse
  have hc1 : d1.currentTime = clampTime (st.nextReadStartTime + r1) st.start st.endTime := by
    rw [← hd1e]
  have hs0' : 0 ≤ (tickStep st t1 r1 m1).1.start := by
    rw [hst1]
    exact hs0
  have hse' : (tickStep st t1 r1 m1).1.start ≤ (tickStep st t1 r1 m1).1.endTime := by
    rw [hst1]
    exact hse
  obtain ⟨hi2, hp2, he2, hn2, hact2, hst2⟩ := tickStep_emit hs0' hse' h2
  obtain hd2e := Option.some.inj (hact2.symm.trans hd2)
  have hc2 : d2.currentTime = clampTime
      ((tickStep st t1 r1 m1).1.nextReadStartTime + r2)
      (tickStep st t1 r1 m1).1.start (tickStep st t1 r1 m1).1.endTime := by
    rw [← hd2e]
  have hfld : (tickStep st t1 r1 m1).1.nextReadStartTime
        = clampTime (st.nextReadStartTime + r1) st.start st.endTime + 1
      ∧ (tickStep st t1 r1 m1).1.start = st.start
      ∧ (tickStep st t1 r1 m1).1.endTime = st.endTime := by
    rw [hst1]
    exact ⟨rfl, rfl, rfl⟩
  rw [hfld.1, hfld.2.1, hfld.2.2] at hc2
  refine ⟨?_, ?_, ?_⟩
  · rw [hc1, hc2]
    exact le_clampTime hb1.1 hb1.2 (by omega)
  · rw [hc1]
    exact hb1.2
  · rw [hc2]
    exact (clampTime_bounds _ st.start st.endTime hse).2

theorem player_c10_witness :
    (0 : Int) ≤ rapReady.start ∧ rapReady.start ≤ rapReady.endTime ∧ (0 : Int) ≤ 200000000 ∧
    (tickStep rapReady 100 100000000 [c1msg]).2
      = some ⟨.present, some ⟨[c1msg], 5100000000, 0, 10000000000, true, 1, 1000⟩⟩ ∧
    (tickStep (tickStep rapReady 100 100000000 [c1msg]).1 200 200000000 []).2
      = some ⟨.present, some ⟨[], 5300000001, 0, 10000000000, true, 1, 1000⟩⟩ ∧
    (5100000000 : Int) ≤ 5300000001 ∧ (5100000000 : Int) ≤ rapReady.endTime ∧
    (5300000001 : Int) ≤ rapReady.endTime := by
  have h := player_c10 rapReady 100 100000000 200 200000000 [c1msg] []
    (by decide) (by decide) (by decide)
    ⟨.present, some ⟨[c1msg], 5100000000, 0, 10000000000, true, 1, 1000⟩⟩
    ⟨.present, some ⟨[], 5300000001, 0, 10000000000, true, 1, 1000⟩⟩
    ⟨[c1msg], 5100000000, 0, 10000000000, true, 1, 1000⟩
    ⟨[], 5300000001, 0, 10000000000, true, 1, 1000⟩
    (by decide) (by decide) (by decide) (by decide)
  exact ⟨by decide, by decide, by decide, by decide, by decide, h.1, h.2.1, h.2.2⟩
